import Mathlib

/-!
Verification of the Andersen-style points-to analysis (anderson-rust).

The development shallowly embeds `src/main.rs`:
* the nom parser (`parse_identifier`, `parse_constraint`,
  `parse_constraint_list`) as functions over `List Char`;
* the constraint graph (`ConstraintGraph`) as a `SolverState` record holding
  the node list (petgraph insertion order), the points-to map (`pts`, a
  function to duplicate-free lists standing for the per-node `HashMap`),
  the edge list (petgraph edge insertion order), and the worklist;
* the phases `init_nodes`, `init_basic_ptrs`, `init_simple_edges` and the
  worklist loop of `solve_complex_edges`.

The worklist loop is embedded with explicit fuel (`loopFuel`); a computed
bound is proved sufficient, so the fueled function is the loop's total
semantics.  A `RefCell` double borrow in the propagation step of
`solve_complex_edges` (mutably borrowing the target of an edge whose source
is the node currently held shared) is modelled by the `Option` result of
`processNodeL`: processing a node that has a self-loop edge aborts.
-/

/-- `ConstraintKind` of `main.rs`: the four statement forms. -/
inductive ConstraintKind where
  | Addr
  | Equal
  | DerefRight
  | DerefLeft
deriving DecidableEq, Repr

/-- `Constraint` of `main.rs`: one parsed statement. -/
structure Constraint where
  left : String
  right : String
  kind : ConstraintKind
deriving DecidableEq, Repr

/-! ### Parser

The nom combinators are embedded over `List Char`, returning
`Option (value × rest)`; `none` is a nom `Err`, on which `alt` and `opt`
backtrack.  Rust's Unicode `char::is_alphabetic` / `is_alphanumeric` are
rendered by `Char.isAlpha` / `Char.isAlphanum`, which agree on the ASCII
inputs the test grammar exercises. -/

/-- nom `multispace0`: drop leading spaces, tabs, carriage returns, newlines. -/
def isMultispace (c : Char) : Bool :=
  c = ' ' || c = '\t' || c = '\r' || c = '\n'

/-- The remainder after nom `multispace0`. -/
def multispace0 (input : List Char) : List Char :=
  input.dropWhile isMultispace

/-- nom `tag` for the one-character tags "=", "&", "*", ";". -/
def tagChar (c : Char) (input : List Char) : Option (List Char) :=
  match input with
  | [] => none
  | d :: rest => if d = c then some rest else none

/-- `parse_identifier`: `recognize(take_while_m_n(1,1,alpha), take_while(alnum))`:
one alphabetic lead character, then alphanumeric characters. -/
def parse_identifier (input : List Char) : Option (String × List Char) :=
  match input with
  | [] => none
  | c :: rest =>
    if c.isAlpha then
      some (String.mk (c :: rest.takeWhile Char.isAlphanum),
            rest.dropWhile Char.isAlphanum)
    else none

/-- The `l = &r` branch of `parse_constraint`. -/
def parse_addr (input : List Char) : Option (Constraint × List Char) :=
  match parse_identifier input with
  | none => none
  | some (l, r1) =>
    match tagChar '=' (multispace0 r1) with
    | none => none
    | some r2 =>
      match tagChar '&' (multispace0 r2) with
      | none => none
      | some r3 =>
        match parse_identifier (multispace0 r3) with
        | none => none
        | some (r, r4) => some (⟨l, r, ConstraintKind.Addr⟩, r4)

/-- The `l = r` branch of `parse_constraint`. -/
def parse_equal (input : List Char) : Option (Constraint × List Char) :=
  match parse_identifier input with
  | none => none
  | some (l, r1) =>
    match tagChar '=' (multispace0 r1) with
    | none => none
    | some r2 =>
      match parse_identifier (multispace0 r2) with
      | none => none
      | some (r, r3) => some (⟨l, r, ConstraintKind.Equal⟩, r3)

/-- The `l = *r` branch of `parse_constraint`. -/
def parse_load (input : List Char) : Option (Constraint × List Char) :=
  match parse_identifier input with
  | none => none
  | some (l, r1) =>
    match tagChar '=' (multispace0 r1) with
    | none => none
    | some r2 =>
      match tagChar '*' (multispace0 r2) with
      | none => none
      | some r3 =>
        match parse_identifier (multispace0 r3) with
        | none => none
        | some (r, r4) => some (⟨l, r, ConstraintKind.DerefRight⟩, r4)

/-- The `*l = r` branch of `parse_constraint`. -/
def parse_store (input : List Char) : Option (Constraint × List Char) :=
  match tagChar '*' input with
  | none => none
  | some r0 =>
    match parse_identifier (multispace0 r0) with
    | none => none
    | some (l, r1) =>
      match tagChar '=' (multispace0 r1) with
      | none => none
      | some r2 =>
        match parse_identifier (multispace0 r2) with
        | none => none
        | some (r, r3) => some (⟨l, r, ConstraintKind.DerefLeft⟩, r3)

/-- The nom `alt` of the four constraint branches, in source order. -/
def parse_alt (inp : List Char) : Option (Constraint × List Char) :=
  match parse_addr inp with
  | some r => some r
  | none =>
    match parse_equal inp with
    | some r => some r
    | none =>
      match parse_load inp with
      | some r => some r
      | none => parse_store inp

/-- `parse_constraint`: leading `multispace0`, the `alt`, then
`opt(multispace0, tag ";")` which backtracks wholly when the semicolon is
absent. -/
def parse_constraint (input : List Char) : Option (Constraint × List Char) :=
  match parse_alt (multispace0 input) with
  | none => none
  | some (c, rest) =>
    match tagChar ';' (multispace0 rest) with
    | some rest2 => some (c, rest2)
    | none => some (c, rest)

/-- nom `many0(parse_constraint)`, with fuel; `parse_constraint` consumes at
least one character on success (`parse_constraint_consumes`), so fuel
`input.length + 1` never runs out. -/
def parse_constraints_go (fuel : Nat) (input : List Char) (acc : List Constraint) :
    List Constraint × List Char :=
  match fuel with
  | 0 => (acc.reverse, input)
  | fuel + 1 =>
    match parse_constraint input with
    | none => (acc.reverse, input)
    | some (c, rest) => parse_constraints_go fuel rest (c :: acc)

/-- `terminated(many0(parse_constraint), multispace0)`: the constraint list
and the unconsumed remainder. -/
def parse_list_raw (input : List Char) : List Constraint × List Char :=
  let r := parse_constraints_go (input.length + 1) input []
  (r.1, multispace0 r.2)

/-- `parse_constraint_list`: `all_consuming` — succeed only when the
remainder is empty. -/
def parse_constraint_list (s : String) : Option (List Constraint) :=
  let r := parse_list_raw s.data
  if r.2 = [] then some r.1 else none

/-! ### Constraint graph and solver state

`ConstraintGraph` holds a petgraph `DiGraph` of `Rc<RefCell<ConstraintNode>>`
plus an id index.  It is embedded as one record: `nodes` is the node list in
petgraph insertion order (`node_indices` iterates it in that order), `pts`
maps each id to its points-to set (key list of the per-node `HashMap`, kept
duplicate-free; ids not in `nodes` map to `[]`), `edges` is the edge list in
petgraph insertion order, and `queue` is the `VecDeque` worklist, by id. -/

structure SolverState where
  nodes : List String
  pts : String → List String
  edges : List (String × String)
  queue : List String

/-- Insert an id into a node list if absent (the `Entry::Vacant` branch of
`add_node`). -/
def addId (ns : List String) (id : String) : List String :=
  if id ∈ ns then ns else ns ++ [id]

/-- `ConstraintGraph::add_node`: create a node only if absent, else no-op. -/
def add_node (st : SolverState) (id : String) : SolverState :=
  { st with nodes := addId st.nodes id }

/-- `ConstraintGraph::init_nodes`, tracked on the node list: for each
constraint register `left` then `right`. -/
def init_nodes (cs : List Constraint) : List String :=
  cs.foldl (fun ns c => addId (addId ns c.left) c.right) []

/-- One constraint of `ConstraintGraph::init_basic_ptrs`: for an `Addr`
constraint insert `right` into `left`'s points-to set (a `HashMap` insert:
membership-idempotent). -/
def initPtsStep (p : String → List String) (c : Constraint) : String → List String :=
  if c.kind = ConstraintKind.Addr then
    fun x =>
      if x = c.left then
        (if c.right ∈ p c.left then p c.left else p c.left ++ [c.right])
      else p x
  else p

/-- `ConstraintGraph::init_basic_ptrs`: the base points-to facts. -/
def init_basic_ptrs (cs : List Constraint) : String → List String :=
  cs.foldl initPtsStep (fun _ => [])

/-- `ConstraintGraph::init_simple_edges`: one edge `right → left` per `Equal`
constraint, appended in constraint order with no duplicate check
(`add_edge` inserts unconditionally). -/
def init_simple_edges (cs : List Constraint) : List (String × String) :=
  cs.filterMap (fun c =>
    if c.kind = ConstraintKind.Equal then some (c.right, c.left) else none)

/-- The graph state entering `solve_complex_edges`: after `init_nodes`,
`init_basic_ptrs` and `init_simple_edges`, with the worklist seeded by every
node whose points-to set is non-empty, in node order. -/
def initState (cs : List Constraint) : SolverState :=
  { nodes := init_nodes cs
    pts := init_basic_ptrs cs
    edges := init_simple_edges cs
    queue := (init_nodes cs).filter (fun v => !(init_basic_ptrs cs v).isEmpty) }

/-- One `(a, constraint)` step of the dereference-resolution scan for the
popped node `v`: `DerefRight l = *r` with `r = v` installs the missing edge
`a → l` and enqueues `a`; `DerefLeft *l = r` with `l = v` installs the
missing edge `r → a` and enqueues `r` (`contains_edge` is the dedup test). -/
def derefStep (v : String) (st : SolverState) (a : String) (c : Constraint) :
    SolverState :=
  if c.kind = ConstraintKind.DerefRight then
    (if c.right = v ∧ (a, c.left) ∉ st.edges then
      { st with edges := st.edges ++ [(a, c.left)], queue := st.queue ++ [a] }
    else st)
  else if c.kind = ConstraintKind.DerefLeft then
    (if c.left = v ∧ (c.right, a) ∉ st.edges then
      { st with edges := st.edges ++ [(c.right, a)], queue := st.queue ++ [c.right] }
    else st)
  else st

/-- The dereference-resolution phase: for every `a` in `v`'s points-to set
(iterated as the list `l`), scan the whole constraint list. -/
def derefPhase (cs : List Constraint) (v : String) (st : SolverState)
    (l : List String) : SolverState :=
  l.foldl (fun s a => cs.foldl (fun s2 c => derefStep v s2 a c) s) st

/-- `q.pts.extend(v.pts.clone())`: union the source set into the target,
keeping first occurrences. -/
def extendPts (tgt : List String) (src : List String) : List String :=
  src.foldl (fun acc o => if o ∈ acc then acc else acc ++ [o]) tgt

/-- One edge of the propagation scan for popped node `v` (with `l` standing
for `v`'s points-to set): if the edge leaves `v`, extend the target's set and
enqueue the target when its size grew. -/
def propStep (v : String) (l : List String) (st : SolverState)
    (e : String × String) : SolverState :=
  if e.1 = v then
    { st with
      pts := fun x => if x = e.2 then extendPts (st.pts e.2) l else st.pts x
      queue :=
        if (extendPts (st.pts e.2) l).length = (st.pts e.2).length then st.queue
        else st.queue ++ [e.2] }
  else st

/-- The propagation phase: scan the whole current edge list. -/
def propagationPhase (v : String) (l : List String) (st : SolverState) :
    SolverState :=
  st.edges.foldl (propStep v l) st

/-- One iteration of the `solve_complex_edges` loop on popped node `v`, with
`l` the iteration order of `v`'s points-to set: dereference resolution, then
propagation.  While `v` is processed its `RefCell` is held shared; the
propagation step takes a mutable borrow of each edge target with source `v`,
so a self-loop edge at `v` makes `borrow_mut` panic — modelled as `none`. -/
def processNodeL (cs : List Constraint) (st : SolverState) (v : String)
    (l : List String) : Option SolverState :=
  if (v, v) ∈ (derefPhase cs v st l).edges then none
  else some (propagationPhase v l (derefPhase cs v st l))

/-- The `while !work_queue.is_empty()` loop of `solve_complex_edges`, with
explicit fuel: `some (some st)` is normal completion, `some none` the
`RefCell` panic, `none` fuel exhaustion (shown unreachable from
`fuelBound`).  Each iteration pops the queue front. -/
def loopFuel (cs : List Constraint) : Nat → SolverState → Option (Option SolverState)
  | 0, st => if st.queue = [] then some (some st) else none
  | n + 1, st =>
    match st.queue with
    | [] => some (some st)
    | v :: q =>
      match processNodeL cs { st with queue := q } v (st.pts v) with
      | none => some none
      | some st1 => loopFuel cs n st1

/-- The number of `Equal` constraints plus the squared node count: an upper
bound on the edge count (dynamic edges are deduplicated). -/
def edgeBound (cs : List Constraint) : Nat :=
  (init_simple_edges cs).length + (init_nodes cs).length * (init_nodes cs).length

/-- Squared node count: an upper bound on the total points-to size. -/
def ptsBound (cs : List Constraint) : Nat :=
  (init_nodes cs).length * (init_nodes cs).length

/-- Total points-to size over a list of nodes. -/
def ptsSizeOn (ns : List String) (st : SolverState) : Nat :=
  (ns.map (fun x => (st.pts x).length)).sum

/-- Total points-to size over the (fixed) node universe. -/
def ptsSize (cs : List Constraint) (st : SolverState) : Nat :=
  ptsSizeOn (init_nodes cs) st

/-- The termination measure of the worklist loop: slack to the edge bound,
plus slack to the points-to bound, plus the queue length. -/
def mu (cs : List Constraint) (st : SolverState) : Nat :=
  (edgeBound cs - st.edges.length) + (ptsBound cs - ptsSize cs st) + st.queue.length

/-- Fuel that provably suffices for the worklist loop. -/
def fuelBound (cs : List Constraint) : Nat :=
  mu cs (initState cs)

/-- `ConstraintGraph::solve` on a fresh graph: the initialization phases and
the worklist loop.  `none` is the `RefCell` panic of `solve_complex_edges`. -/
def solveOpt (cs : List Constraint) : Option SolverState :=
  match loopFuel cs (fuelBound cs) (initState cs) with
  | some r => r
  | none => none

/-- The solved state (for concrete runs known to succeed). -/
def solveSt (cs : List Constraint) : SolverState :=
  (solveOpt cs).getD (initState cs)

/-- Remove one occurrence of the chosen node from the worklist. -/
def popQueue (st : SolverState) (v : String) : SolverState :=
  { st with queue := st.queue.erase v }

/-- A run of the `solve_complex_edges` loop with nondeterministic scheduling:
each step pops some queue member `v` and processes it, iterating `v`'s
points-to set in an arbitrary order `l` (the `HashMap` iteration order). -/
inductive Run (cs : List Constraint) : SolverState → SolverState → Prop where
  | refl (st : SolverState) : Run cs st st
  | step {st st1 fin : SolverState} {v : String} {l : List String} :
      v ∈ st.queue → l.Perm (st.pts v) →
      processNodeL cs (popQueue st v) v l = some st1 →
      Run cs st1 fin → Run cs st fin

/-- A points-to or edge fact about the solved graph. -/
inductive AFact where
  | pt : String → String → AFact
  | edge : String → String → AFact

/-- The declarative least fixpoint of the constraint system: the facts the
Andersen rules derive from the constraint list. -/
inductive Deriv (cs : List Constraint) : AFact → Prop where
  | addr {l r : String} : Constraint.mk l r ConstraintKind.Addr ∈ cs →
      Deriv cs (AFact.pt l r)
  | equal {l r : String} : Constraint.mk l r ConstraintKind.Equal ∈ cs →
      Deriv cs (AFact.edge r l)
  | derefR {l r o : String} : Constraint.mk l r ConstraintKind.DerefRight ∈ cs →
      Deriv cs (AFact.pt r o) → Deriv cs (AFact.edge o l)
  | derefL {l r o : String} : Constraint.mk l r ConstraintKind.DerefLeft ∈ cs →
      Deriv cs (AFact.pt l o) → Deriv cs (AFact.edge r o)
  | prop {s t o : String} : Deriv cs (AFact.edge s t) → Deriv cs (AFact.pt s o) →
      Deriv cs (AFact.pt t o)

/-- A fact read off a state. -/
def holds (st : SolverState) : AFact → Prop
  | AFact.pt v o => o ∈ st.pts v
  | AFact.edge s t => (s, t) ∈ st.edges


/-! ### Parser lemmas

`parse_constraint` consumes at least one character whenever it succeeds, so
the fuel `input.length + 1` given to `parse_constraints_go` can never run
out before nom's `many0` would stop: the fueled embedding is the loop's
total semantics. -/

theorem dropWhile_length_le (p : Char → Bool) (l : List Char) :
    (l.dropWhile p).length ≤ l.length := by
  induction l with
  | nil => simp
  | cons a tl ih =>
    by_cases h : p a
    · rw [List.dropWhile_cons_of_pos h]
      simp
      omega
    · rw [List.dropWhile_cons_of_neg (by simpa using h)]

theorem multispace0_length_le (input : List Char) :
    (multispace0 input).length ≤ input.length :=
  dropWhile_length_le isMultispace input

theorem tagChar_length {c : Char} {input rest : List Char}
    (h : tagChar c input = some rest) : rest.length < input.length := by
  cases input with
  | nil => simp [tagChar] at h
  | cons d tl =>
    by_cases hd : d = c
    · simp only [tagChar, if_pos hd] at h
      cases h
      simp
    · simp [tagChar, hd] at h

theorem parse_identifier_length {input : List Char} {v : String} {rest : List Char}
    (h : parse_identifier input = some (v, rest)) : rest.length < input.length := by
  cases input with
  | nil => simp [parse_identifier] at h
  | cons c tl =>
    by_cases hc : c.isAlpha
    · simp only [parse_identifier, if_pos hc, Option.some.injEq, Prod.mk.injEq] at h
      calc rest.length = (tl.dropWhile Char.isAlphanum).length := by rw [h.2]
        _ ≤ tl.length := dropWhile_length_le _ _
        _ < (c :: tl).length := by simp
    · simp [parse_identifier, hc] at h

theorem parse_addr_length {input : List Char} {c : Constraint} {rest : List Char}
    (h : parse_addr input = some (c, rest)) : rest.length < input.length := by
  unfold parse_addr at h
  split at h
  next => exact absurd h (by simp)
  next l r1 h1 =>
    split at h
    next => exact absurd h (by simp)
    next r2 h2 =>
      split at h
      next => exact absurd h (by simp)
      next r3 h3 =>
        split at h
        next => exact absurd h (by simp)
        next rr r4 h4 =>
          simp only [Option.some.injEq, Prod.mk.injEq] at h
          have e4 : r4.length < r3.length :=
            lt_of_lt_of_le (parse_identifier_length h4) (multispace0_length_le r3)
          have e3 : r3.length < r2.length :=
            lt_of_lt_of_le (tagChar_length h3) (multispace0_length_le r2)
          have e2 : r2.length < r1.length :=
            lt_of_lt_of_le (tagChar_length h2) (multispace0_length_le r1)
          have e1 : r1.length < input.length := parse_identifier_length h1
          rw [← h.2]
          omega

theorem parse_equal_length {input : List Char} {c : Constraint} {rest : List Char}
    (h : parse_equal input = some (c, rest)) : rest.length < input.length := by
  unfold parse_equal at h
  split at h
  next => exact absurd h (by simp)
  next l r1 h1 =>
    split at h
    next => exact absurd h (by simp)
    next r2 h2 =>
      split at h
      next => exact absurd h (by simp)
      next rr r3 h3 =>
        simp only [Option.some.injEq, Prod.mk.injEq] at h
        have e3 : r3.length < r2.length :=
          lt_of_lt_of_le (parse_identifier_length h3) (multispace0_length_le r2)
        have e2 : r2.length < r1.length :=
          lt_of_lt_of_le (tagChar_length h2) (multispace0_length_le r1)
        have e1 : r1.length < input.length := parse_identifier_length h1
        rw [← h.2]
        omega

theorem parse_load_length {input : List Char} {c : Constraint} {rest : List Char}
    (h : parse_load input = some (c, rest)) : rest.length < input.length := by
  unfold parse_load at h
  split at h
  next => exact absurd h (by simp)
  next l r1 h1 =>
    split at h
    next => exact absurd h (by simp)
    next r2 h2 =>
      split at h
      next => exact absurd h (by simp)
      next r3 h3 =>
        split at h
        next => exact absurd h (by simp)
        next rr r4 h4 =>
          simp only [Option.some.injEq, Prod.mk.injEq] at h
          have e4 : r4.length < r3.length :=
            lt_of_lt_of_le (parse_identifier_length h4) (multispace0_length_le r3)
          have e3 : r3.length < r2.length :=
            lt_of_lt_of_le (tagChar_length h3) (multispace0_length_le r2)
          have e2 : r2.length < r1.length :=
            lt_of_lt_of_le (tagChar_length h2) (multispace0_length_le r1)
          have e1 : r1.length < input.length := parse_identifier_length h1
          rw [← h.2]
          omega

theorem parse_store_length {input : List Char} {c : Constraint} {rest : List Char}
    (h : parse_store input = some (c, rest)) : rest.length < input.length := by
  unfold parse_store at h
  split at h
  next => exact absurd h (by simp)
  next r0 h0 =>
    split at h
    next => exact absurd h (by simp)
    next l r1 h1 =>
      split at h
      next => exact absurd h (by simp)
      next r2 h2 =>
        split at h
        next => exact absurd h (by simp)
        next rr r3 h3 =>
          simp only [Option.some.injEq, Prod.mk.injEq] at h
          have e3 : r3.length < r2.length :=
            lt_of_lt_of_le (parse_identifier_length h3) (multispace0_length_le r2)
          have e2 : r2.length < r1.length :=
            lt_of_lt_of_le (tagChar_length h2) (multispace0_length_le r1)
          have e1 : r1.length < r0.length :=
            lt_of_lt_of_le (parse_identifier_length h1) (multispace0_length_le r0)
          have e0 : r0.length < input.length := tagChar_length h0
          rw [← h.2]
          omega

theorem parse_alt_length {inp : List Char} {c : Constraint} {rest : List Char}
    (h : parse_alt inp = some (c, rest)) : rest.length < inp.length := by
  unfold parse_alt at h
  split at h
  next r ha =>
    cases h
    exact parse_addr_length ha
  next ha =>
    split at h
    next r he =>
      cases h
      exact parse_equal_length he
    next he =>
      split at h
      next r hl =>
        cases h
        exact parse_load_length hl
      next hl =>
        exact parse_store_length h

/-- `parse_constraint` consumes at least one character when it succeeds. -/
theorem parse_constraint_consumes {input : List Char} {c : Constraint}
    {rest : List Char} (h : parse_constraint input = some (c, rest)) :
    rest.length < input.length := by
  unfold parse_constraint at h
  split at h
  next => exact absurd h (by simp)
  next c1 rest1 hb =>
    have hr1 : rest1.length < (multispace0 input).length := parse_alt_length hb
    have hms := multispace0_length_le input
    split at h
    next rest2 hsemi =>
      cases h
      have h2 : rest.length < (multispace0 rest1).length := tagChar_length hsemi
      have := multispace0_length_le rest1
      omega
    next hsemi =>
      cases h
      omega

/-! ### Initialization-phase characterizations -/

theorem mem_addId {ns : List String} {id x : String} :
    x ∈ addId ns id ↔ x ∈ ns ∨ x = id := by
  unfold addId
  by_cases h : id ∈ ns
  · rw [if_pos h]
    constructor
    · exact Or.inl
    · rintro (hx | rfl)
      · exact hx
      · exact h
  · simp [if_neg h]

theorem addId_nodup {ns : List String} {id : String} (h : ns.Nodup) :
    (addId ns id).Nodup := by
  unfold addId
  by_cases hm : id ∈ ns
  · simpa [if_pos hm]
  · rw [if_neg hm]
    simpa [List.nodup_append] using ⟨h, hm⟩

theorem init_nodes_fold_mem (cs : List Constraint) :
    ∀ (ns : List String) (x : String),
      x ∈ cs.foldl (fun ns c => addId (addId ns c.left) c.right) ns ↔
        x ∈ ns ∨ ∃ c ∈ cs, x = c.left ∨ x = c.right := by
  induction cs with
  | nil => simp
  | cons c tl ih =>
    intro ns x
    simp only [List.foldl_cons]
    rw [ih]
    simp only [mem_addId, List.mem_cons]
    aesop

theorem mem_init_nodes {cs : List Constraint} {x : String} :
    x ∈ init_nodes cs ↔ ∃ c ∈ cs, x = c.left ∨ x = c.right := by
  unfold init_nodes
  rw [init_nodes_fold_mem]
  simp

theorem init_nodes_nodup (cs : List Constraint) : (init_nodes cs).Nodup := by
  unfold init_nodes
  have h : ∀ ns : List String, ns.Nodup →
      (cs.foldl (fun ns c => addId (addId ns c.left) c.right) ns).Nodup := by
    induction cs with
    | nil => intro ns h; simpa
    | cons c tl ih =>
      intro ns h
      exact ih _ (addId_nodup (addId_nodup h))
  exact h [] List.nodup_nil

theorem left_mem_init_nodes {cs : List Constraint} {c : Constraint} (h : c ∈ cs) :
    c.left ∈ init_nodes cs :=
  mem_init_nodes.mpr ⟨c, h, Or.inl rfl⟩

theorem right_mem_init_nodes {cs : List Constraint} {c : Constraint} (h : c ∈ cs) :
    c.right ∈ init_nodes cs :=
  mem_init_nodes.mpr ⟨c, h, Or.inr rfl⟩

theorem mem_initPtsStep {p : String → List String} {c : Constraint} {x o : String} :
    o ∈ initPtsStep p c x ↔
      o ∈ p x ∨ (c.kind = ConstraintKind.Addr ∧ c.left = x ∧ c.right = o) := by
  unfold initPtsStep
  by_cases hk : c.kind = ConstraintKind.Addr
  · rw [if_pos hk]
    by_cases hx : x = c.left
    · subst hx
      by_cases hm : c.right ∈ p c.left
      · rw [if_pos rfl, if_pos hm]
        constructor
        · exact Or.inl
        · rintro (h | ⟨-, -, rfl⟩)
          · exact h
          · exact hm
      · rw [if_pos rfl, if_neg hm]
        constructor
        · intro h
          rcases List.mem_append.mp h with h | h
          · exact Or.inl h
          · exact Or.inr ⟨hk, rfl, (List.mem_singleton.mp h).symm⟩
        · rintro (h | ⟨-, -, rfl⟩)
          · exact List.mem_append_left _ h
          · exact List.mem_append_right _ (List.mem_singleton.mpr rfl)
    · rw [if_neg hx]
      simp only [iff_self_or]
      rintro ⟨-, he, -⟩
      exact absurd he.symm hx
  · rw [if_neg hk]
    simp only [iff_self_or]
    rintro ⟨h, -, -⟩
    exact absurd h hk

theorem init_basic_ptrs_fold_mem (cs : List Constraint) :
    ∀ (p : String → List String) (x o : String),
      o ∈ cs.foldl initPtsStep p x ↔
        o ∈ p x ∨ ∃ c ∈ cs, c.kind = ConstraintKind.Addr ∧ c.left = x ∧ c.right = o := by
  induction cs with
  | nil => simp
  | cons c tl ih =>
    intro p x o
    simp only [List.foldl_cons]
    rw [ih]
    rw [mem_initPtsStep]
    simp only [List.mem_cons]
    aesop

theorem mem_init_basic_ptrs {cs : List Constraint} {x o : String} :
    o ∈ init_basic_ptrs cs x ↔
      ∃ c ∈ cs, c.kind = ConstraintKind.Addr ∧ c.left = x ∧ c.right = o := by
  unfold init_basic_ptrs
  rw [init_basic_ptrs_fold_mem]
  simp

theorem initPtsStep_nodup {p : String → List String} {c : Constraint}
    (h : ∀ x, (p x).Nodup) : ∀ x, (initPtsStep p c x).Nodup := by
  intro x
  unfold initPtsStep
  by_cases hk : c.kind = ConstraintKind.Addr
  · rw [if_pos hk]
    by_cases hx : x = c.left
    · subst hx
      by_cases hm : c.right ∈ p c.left
      · simpa [if_pos hm] using h c.left
      · rw [if_pos rfl, if_neg hm]
        simpa [List.nodup_append] using ⟨h c.left, hm⟩
    · simpa [if_neg hx] using h x
  · rw [if_neg hk]
    exact h x

theorem init_basic_ptrs_nodup (cs : List Constraint) :
    ∀ x, (init_basic_ptrs cs x).Nodup := by
  unfold init_basic_ptrs
  have h : ∀ (p : String → List String), (∀ x, (p x).Nodup) →
      ∀ x, (cs.foldl initPtsStep p x).Nodup := by
    induction cs with
    | nil => intro p h; simpa
    | cons c tl ih => intro p h; exact ih _ (initPtsStep_nodup h)
  exact h _ (by simp)

theorem mem_init_simple_edges {cs : List Constraint} {e : String × String} :
    e ∈ init_simple_edges cs ↔
      ∃ c ∈ cs, c.kind = ConstraintKind.Equal ∧ e = (c.right, c.left) := by
  unfold init_simple_edges
  rw [List.mem_filterMap]
  constructor
  · rintro ⟨c, hc, hsome⟩
    by_cases hk : c.kind = ConstraintKind.Equal
    · rw [if_pos hk] at hsome
      simp only [Option.some.injEq] at hsome
      exact ⟨c, hc, hk, hsome.symm⟩
    · rw [if_neg hk] at hsome
      exact absurd hsome (by simp)
  · rintro ⟨c, hc, hk, rfl⟩
    exact ⟨c, hc, by rw [if_pos hk]⟩

/-! ### extendPts lemmas -/

theorem extendPts_spec (l : List String) :
    ∀ tgt : List String, ∃ ex,
      extendPts tgt l = tgt ++ ex ∧ ex.Nodup ∧ ∀ o ∈ ex, o ∈ l ∧ o ∉ tgt := by
  induction l with
  | nil =>
    intro tgt
    exact ⟨[], by simp [extendPts], List.nodup_nil, by simp⟩
  | cons o l ih =>
    intro tgt
    show ∃ ex, (l.foldl (fun acc o => if o ∈ acc then acc else acc ++ [o])
        (if o ∈ tgt then tgt else tgt ++ [o])) = tgt ++ ex ∧ _
    by_cases hm : o ∈ tgt
    · rw [if_pos hm]
      obtain ⟨ex, he, hn, hc⟩ := ih tgt
      exact ⟨ex, he, hn, fun x hx => ⟨List.mem_cons_of_mem o (hc x hx).1, (hc x hx).2⟩⟩
    · rw [if_neg hm]
      obtain ⟨ex, he, hn, hc⟩ := ih (tgt ++ [o])
      refine ⟨o :: ex, ?_, ?_, ?_⟩
      · show extendPts (tgt ++ [o]) l = tgt ++ (o :: ex)
        rw [he, List.append_assoc]
        rfl
      · refine List.nodup_cons.mpr ⟨fun hmem => ?_, hn⟩
        exact (hc o hmem).2 (List.mem_append_right tgt (List.mem_singleton.mpr rfl))
      · intro x hx
        rcases List.mem_cons.mp hx with rfl | hx
        · exact ⟨List.mem_cons_self x l, hm⟩
        · refine ⟨List.mem_cons_of_mem o (hc x hx).1, fun hxt => ?_⟩
          exact (hc x hx).2 (List.mem_append_left [o] hxt)

theorem mem_extendPts_of_tgt {tgt l : List String} {o : String} (h : o ∈ tgt) :
    o ∈ extendPts tgt l := by
  obtain ⟨ex, he, -, -⟩ := extendPts_spec l tgt
  rw [he]
  exact List.mem_append_left ex h

theorem mem_extendPts_of_src (l : List String) :
    ∀ (tgt : List String) (o : String), o ∈ l → o ∈ extendPts tgt l := by
  induction l with
  | nil => intro tgt o h; cases h
  | cons a l ih =>
    intro tgt o h
    show o ∈ l.foldl (fun acc o => if o ∈ acc then acc else acc ++ [o])
      (if a ∈ tgt then tgt else tgt ++ [a])
    rcases List.mem_cons.mp h with rfl | h
    · by_cases hm : o ∈ tgt
      · rw [if_pos hm]
        exact mem_extendPts_of_tgt hm
      · rw [if_neg hm]
        exact mem_extendPts_of_tgt (List.mem_append_right tgt (List.mem_singleton.mpr rfl))
    · by_cases hm : a ∈ tgt
      · rw [if_pos hm]
        exact ih tgt o h
      · rw [if_neg hm]
        exact ih (tgt ++ [a]) o h

theorem mem_extendPts {tgt l : List String} {o : String} :
    o ∈ extendPts tgt l ↔ o ∈ tgt ∨ o ∈ l := by
  constructor
  · intro h
    obtain ⟨ex, he, -, hc⟩ := extendPts_spec l tgt
    rw [he] at h
    rcases List.mem_append.mp h with h | h
    · exact Or.inl h
    · exact Or.inr (hc o h).1
  · rintro (h | h)
    · exact mem_extendPts_of_tgt h
    · exact mem_extendPts_of_src l tgt o h

theorem extendPts_nodup {tgt l : List String} (h : tgt.Nodup) :
    (extendPts tgt l).Nodup := by
  obtain ⟨ex, he, hn, hc⟩ := extendPts_spec l tgt
  rw [he, List.nodup_append]
  exact ⟨h, hn, fun x hx hex => (hc x hex).2 hx⟩

theorem extendPts_length_eq {tgt l : List String}
    (h : (extendPts tgt l).length = tgt.length) : extendPts tgt l = tgt := by
  obtain ⟨ex, he, -, -⟩ := extendPts_spec l tgt
  rw [he] at h ⊢
  have hex : ex.length = 0 := by
    rw [List.length_append] at h
    omega
  rw [List.length_eq_zero.mp hex]
  simp

theorem extendPts_length_le {tgt l : List String} :
    tgt.length ≤ (extendPts tgt l).length := by
  obtain ⟨ex, he, -, -⟩ := extendPts_spec l tgt
  rw [he, List.length_append]
  omega

/-! ### Dereference-phase lemmas

The nested scan of `derefPhase` (objects of the popped node crossed with the
whole constraint list) is flattened to a single fold over pairs, and one
pass is characterized: it leaves `nodes` and `pts` alone, appends a
duplicate-free batch of fresh edges, and enqueues exactly the sources of
those edges. -/

/-- The edge that a `(object, constraint)` pair installs for popped node
`v`: `DerefRight l = *v` installs `a → l`, `DerefLeft *v = r` installs
`r → a`. -/
def matchesDeref (v : String) (p : String × Constraint) (e : String × String) : Prop :=
  (p.2.kind = ConstraintKind.DerefRight ∧ p.2.right = v ∧ e = (p.1, p.2.left)) ∨
  (p.2.kind = ConstraintKind.DerefLeft ∧ p.2.left = v ∧ e = (p.2.right, p.1))

/-- `derefPhase` as one fold over `(object, constraint)` pairs. -/
def dfold (v : String) (st : SolverState) (ps : List (String × Constraint)) :
    SolverState :=
  ps.foldl (fun s p => derefStep v s p.1 p.2) st

theorem derefPhase_eq_dfold (cs : List Constraint) (v : String) (l : List String) :
    ∀ st : SolverState,
      derefPhase cs v st l = dfold v st (l.flatMap (fun a => cs.map (fun c => (a, c)))) := by
  induction l with
  | nil => intro st; rfl
  | cons a l ih =>
    intro st
    show derefPhase cs v (cs.foldl (fun s2 c => derefStep v s2 a c) st) l = _
    rw [ih]
    unfold dfold
    rw [List.flatMap_cons, List.foldl_append, List.foldl_map]

theorem mem_derefPairs {l : List String} {cs : List Constraint}
    {p : String × Constraint} :
    p ∈ l.flatMap (fun a => cs.map (fun c => (a, c))) ↔ p.1 ∈ l ∧ p.2 ∈ cs := by
  rw [List.mem_flatMap]
  constructor
  · rintro ⟨a, ha, hp⟩
    rcases List.mem_map.mp hp with ⟨c, hc, rfl⟩
    exact ⟨ha, hc⟩
  · rintro ⟨h1, h2⟩
    exact ⟨p.1, h1, List.mem_map.mpr ⟨p.2, h2, rfl⟩⟩

theorem derefStep_cases (v : String) (st : SolverState) (a : String) (c : Constraint) :
    derefStep v st a c = st ∨
    ∃ e, matchesDeref v (a, c) e ∧ e ∉ st.edges ∧
      derefStep v st a c =
        { st with edges := st.edges ++ [e], queue := st.queue ++ [e.1] } := by
  unfold derefStep
  by_cases hk : c.kind = ConstraintKind.DerefRight
  · rw [if_pos hk]
    by_cases hc : c.right = v ∧ (a, c.left) ∉ st.edges
    · rw [if_pos hc]
      exact Or.inr ⟨(a, c.left), Or.inl ⟨hk, hc.1, rfl⟩, hc.2, rfl⟩
    · rw [if_neg hc]
      exact Or.inl rfl
  · rw [if_neg hk]
    by_cases hk2 : c.kind = ConstraintKind.DerefLeft
    · rw [if_pos hk2]
      by_cases hc : c.left = v ∧ (c.right, a) ∉ st.edges
      · rw [if_pos hc]
        exact Or.inr ⟨(c.right, a), Or.inr ⟨hk2, hc.1, rfl⟩, hc.2, rfl⟩
      · rw [if_neg hc]
        exact Or.inl rfl
    · rw [if_neg hk2]
      exact Or.inl rfl

theorem derefStep_ensures {v : String} {st : SolverState} {a : String}
    {c : Constraint} {e : String × String} (h : matchesDeref v (a, c) e) :
    e ∈ (derefStep v st a c).edges := by
  unfold derefStep
  rcases h with ⟨hk, hv, rfl⟩ | ⟨hk, hv, rfl⟩
  · rw [if_pos hk]
    by_cases hm : (a, c.left) ∈ st.edges
    · rw [if_neg (fun hc => hc.2 hm)]
      exact hm
    · rw [if_pos ⟨hv, hm⟩]
      exact List.mem_append_right _ (List.mem_singleton.mpr rfl)
  · have hk1 : ¬ c.kind = ConstraintKind.DerefRight := by
      rw [hk]
      intro hcon
      cases hcon
    rw [if_neg hk1, if_pos hk]
    by_cases hm : (c.right, a) ∈ st.edges
    · rw [if_neg (fun hc => hc.2 hm)]
      exact hm
    · rw [if_pos ⟨hv, hm⟩]
      exact List.mem_append_right _ (List.mem_singleton.mpr rfl)

theorem dfold_spec (v : String) (ps : List (String × Constraint)) :
    ∀ st : SolverState, ∃ ne,
      (dfold v st ps).nodes = st.nodes ∧
      (dfold v st ps).pts = st.pts ∧
      (dfold v st ps).edges = st.edges ++ ne ∧
      (dfold v st ps).queue = st.queue ++ ne.map Prod.fst ∧
      ne.Nodup ∧ (∀ e ∈ ne, e ∉ st.edges) ∧
      (∀ e ∈ ne, ∃ p ∈ ps, matchesDeref v p e) := by
  induction ps with
  | nil =>
    intro st
    exact ⟨[], rfl, rfl, by simp [dfold], by simp [dfold], List.nodup_nil, by simp, by simp⟩
  | cons p ps ih =>
    intro st
    have hstep : dfold v st (p :: ps) = dfold v (derefStep v st p.1 p.2) ps := rfl
    rcases derefStep_cases v st p.1 p.2 with heq | ⟨e, hm, hnotin, heq⟩
    · rw [heq] at hstep
      obtain ⟨ne, h1, h2, h3, h4, h5, h6, h7⟩ := ih st
      rw [← hstep] at h1 h2 h3 h4
      exact ⟨ne, h1, h2, h3, h4, h5, h6,
        fun e he => (h7 e he).imp (fun q hq => ⟨List.mem_cons_of_mem p hq.1, hq.2⟩)⟩
    · rw [heq] at hstep
      obtain ⟨ne, h1, h2, h3, h4, h5, h6, h7⟩ :=
        ih { st with edges := st.edges ++ [e], queue := st.queue ++ [e.1] }
      rw [← hstep] at h1 h2 h3 h4
      refine ⟨e :: ne, h1, h2, ?_, ?_, ?_, ?_, ?_⟩
      · rw [h3]
        simp
      · rw [h4]
        simp
      · refine List.nodup_cons.mpr ⟨fun hmem => ?_, h5⟩
        exact h6 e hmem (List.mem_append_right _ (List.mem_singleton.mpr rfl))
      · intro e2 he2
        rcases List.mem_cons.mp he2 with rfl | he2
        · exact hnotin
        · intro hin
          exact h6 e2 he2 (List.mem_append_left _ hin)
      · intro e2 he2
        rcases List.mem_cons.mp he2 with rfl | he2
        · exact ⟨p, List.mem_cons_self p ps, hm⟩
        · exact (h7 e2 he2).imp (fun q hq => ⟨List.mem_cons_of_mem p hq.1, hq.2⟩)

theorem dfold_edges_mem {v : String} {ps : List (String × Constraint)}
    {st : SolverState} {e : String × String} (h : e ∈ st.edges) :
    e ∈ (dfold v st ps).edges := by
  obtain ⟨ne, -, -, h3, -⟩ := dfold_spec v ps st
  rw [h3]
  exact List.mem_append_left ne h

theorem dfold_complete (v : String) (ps : List (String × Constraint)) :
    ∀ (st : SolverState) (p : String × Constraint), p ∈ ps →
      ∀ e, matchesDeref v p e → e ∈ (dfold v st ps).edges := by
  induction ps with
  | nil => intro st p hp; cases hp
  | cons p0 ps ih =>
    intro st p hp e hm
    have hstep : dfold v st (p0 :: ps) = dfold v (derefStep v st p0.1 p0.2) ps := rfl
    rcases List.mem_cons.mp hp with rfl | hp
    · rw [hstep]
      apply dfold_edges_mem
      obtain ⟨a, c⟩ := p
      exact derefStep_ensures hm
    · rw [hstep]
      exact ih _ p hp e hm

/-! ### Propagation-phase lemmas -/

/-- `propagationPhase` as a fold over an arbitrary edge list. -/
def pfold (v : String) (l : List String) (st : SolverState)
    (es : List (String × String)) : SolverState :=
  es.foldl (propStep v l) st

theorem propagationPhase_eq_pfold (v : String) (l : List String) (st : SolverState) :
    propagationPhase v l st = pfold v l st st.edges := rfl

theorem propStep_nodes (v : String) (l : List String) (st : SolverState)
    (e : String × String) : (propStep v l st e).nodes = st.nodes := by
  unfold propStep
  split <;> rfl

theorem propStep_edges (v : String) (l : List String) (st : SolverState)
    (e : String × String) : (propStep v l st e).edges = st.edges := by
  unfold propStep
  split <;> rfl

theorem propStep_pts_mono {v : String} {l : List String} {st : SolverState}
    {e : String × String} {x o : String} (h : o ∈ st.pts x) :
    o ∈ (propStep v l st e).pts x := by
  unfold propStep
  by_cases hv : e.1 = v
  · rw [if_pos hv]
    show o ∈ if x = e.2 then extendPts (st.pts e.2) l else st.pts x
    by_cases hx : x = e.2
    · rw [if_pos hx]
      rw [hx] at h
      exact mem_extendPts_of_tgt h
    · rw [if_neg hx]
      exact h
  · rw [if_neg hv]
    exact h

theorem propStep_pts_from {v : String} {l : List String} {st : SolverState}
    {e : String × String} {x o : String} (h : o ∈ (propStep v l st e).pts x) :
    o ∈ st.pts x ∨ (e.1 = v ∧ x = e.2 ∧ o ∈ l) := by
  unfold propStep at h
  by_cases hv : e.1 = v
  · rw [if_pos hv] at h
    have h2 : o ∈ if x = e.2 then extendPts (st.pts e.2) l else st.pts x := h
    by_cases hx : x = e.2
    · rw [if_pos hx] at h2
      rcases mem_extendPts.mp h2 with h3 | h3
      · rw [← hx] at h3
        exact Or.inl h3
      · exact Or.inr ⟨hv, hx, h3⟩
    · rw [if_neg hx] at h2
      exact Or.inl h2
  · rw [if_neg hv] at h
    exact Or.inl h

theorem propStep_ensures {v : String} {l : List String} {st : SolverState}
    {e : String × String} (hv : e.1 = v) {o : String} (ho : o ∈ l) :
    o ∈ (propStep v l st e).pts e.2 := by
  unfold propStep
  rw [if_pos hv]
  show o ∈ if e.2 = e.2 then extendPts (st.pts e.2) l else st.pts e.2
  rw [if_pos rfl]
  exact mem_extendPts_of_src l _ o ho

theorem propStep_pts_of_ne {v : String} {l : List String} {st : SolverState}
    {e : String × String} {x : String} (hx : x ≠ e.2) :
    (propStep v l st e).pts x = st.pts x := by
  unfold propStep
  by_cases hv : e.1 = v
  · rw [if_pos hv]
    show (if x = e.2 then extendPts (st.pts e.2) l else st.pts x) = st.pts x
    rw [if_neg hx]
  · rw [if_neg hv]

theorem propStep_queue_cases (v : String) (l : List String) (st : SolverState)
    (e : String × String) :
    (propStep v l st e).queue = st.queue ∨
      (propStep v l st e).queue = st.queue ++ [e.2] := by
  unfold propStep
  by_cases hv : e.1 = v
  · rw [if_pos hv]
    by_cases hlen : (extendPts (st.pts e.2) l).length = (st.pts e.2).length
    · exact Or.inl (by show (if _ then st.queue else _) = st.queue; rw [if_pos hlen])
    · exact Or.inr (by show (if _ then st.queue else _) = _; rw [if_neg hlen])
  · rw [if_neg hv]
    exact Or.inl rfl

theorem propStep_queue_mono {v : String} {l : List String} {st : SolverState}
    {e : String × String} {x : String} (h : x ∈ st.queue) :
    x ∈ (propStep v l st e).queue := by
  rcases propStep_queue_cases v l st e with hq | hq <;> rw [hq]
  · exact h
  · exact List.mem_append_left _ h

theorem propStep_growth {v : String} {l : List String} {st : SolverState}
    {e : String × String} {x o : String} (h : o ∈ (propStep v l st e).pts x)
    (hno : o ∉ st.pts x) : x ∈ (propStep v l st e).queue := by
  unfold propStep at h ⊢
  by_cases hv : e.1 = v
  · rw [if_pos hv] at h ⊢
    have h2 : o ∈ if x = e.2 then extendPts (st.pts e.2) l else st.pts x := h
    by_cases hx : x = e.2
    · rw [if_pos hx] at h2
      by_cases hlen : (extendPts (st.pts e.2) l).length = (st.pts e.2).length
      · rw [extendPts_length_eq hlen] at h2
        rw [hx] at hno
        exact absurd h2 hno
      · show x ∈ if _ then st.queue else st.queue ++ [e.2]
        rw [if_neg hlen]
        exact List.mem_append_right _ (List.mem_singleton.mpr hx)
    · rw [if_neg hx] at h2
      exact absurd h2 hno
  · rw [if_neg hv] at h
    exact absurd h hno

theorem propStep_pts_len_le (v : String) (l : List String) (st : SolverState)
    (e : String × String) (x : String) :
    (st.pts x).length ≤ ((propStep v l st e).pts x).length := by
  unfold propStep
  by_cases hv : e.1 = v
  · rw [if_pos hv]
    show (st.pts x).length ≤ (if x = e.2 then extendPts (st.pts e.2) l else st.pts x).length
    by_cases hx : x = e.2
    · rw [if_pos hx, hx]
      exact extendPts_length_le
    · rw [if_neg hx]
  · rw [if_neg hv]

theorem propStep_pts_nodup {v : String} {l : List String} {st : SolverState}
    {e : String × String} (h : ∀ x, (st.pts x).Nodup) :
    ∀ x, ((propStep v l st e).pts x).Nodup := by
  intro x
  unfold propStep
  by_cases hv : e.1 = v
  · rw [if_pos hv]
    show (if x = e.2 then extendPts (st.pts e.2) l else st.pts x).Nodup
    by_cases hx : x = e.2
    · rw [if_pos hx]
      exact extendPts_nodup (h e.2)
    · rw [if_neg hx]
      exact h x
  · rw [if_neg hv]
    exact h x

theorem sum_update {ns : List String} (hn : ns.Nodup) {x : String} (hx : x ∈ ns)
    (f g : String → Nat) (hfg : ∀ y, y ≠ x → g y = f y) :
    (ns.map g).sum + f x = (ns.map f).sum + g x := by
  induction ns with
  | nil => cases hx
  | cons a tl ih =>
    rcases List.mem_cons.mp hx with rfl | hx2
    · have htl : tl.map g = tl.map f := by
        apply List.map_congr_left
        intro y hy
        exact hfg y (fun he => (List.nodup_cons.mp hn).1 (he ▸ hy))
      simp only [List.map_cons, List.sum_cons, htl]
      omega
    · have ha : g a = f a := hfg a (fun he => (List.nodup_cons.mp hn).1 (he ▸ hx2))
      have := ih (List.nodup_cons.mp hn).2 hx2
      simp only [List.map_cons, List.sum_cons, ha]
      omega

theorem ptsSizeOn_le_of_pointwise {ns : List String} {st1 st2 : SolverState}
    (h : ∀ x, (st1.pts x).length ≤ (st2.pts x).length) :
    ptsSizeOn ns st1 ≤ ptsSizeOn ns st2 :=
  List.sum_le_sum (fun x _ => h x)

theorem propStep_measure {ns : List String} (hn : ns.Nodup) {v : String}
    {l : List String} {st : SolverState} {e : String × String}
    (hmem : e.1 = v → e.2 ∈ ns) :
    (propStep v l st e).queue.length + ptsSizeOn ns st ≤
      st.queue.length + ptsSizeOn ns (propStep v l st e) := by
  by_cases hv : e.1 = v
  · by_cases hlen : (extendPts (st.pts e.2) l).length = (st.pts e.2).length
    · have hq : (propStep v l st e).queue = st.queue := by
        unfold propStep
        rw [if_pos hv]
        show (if _ then st.queue else _) = st.queue
        rw [if_pos hlen]
      rw [hq]
      have hle : ptsSizeOn ns st ≤ ptsSizeOn ns (propStep v l st e) :=
        ptsSizeOn_le_of_pointwise (propStep_pts_len_le v l st e)
      omega
    · have hq : (propStep v l st e).queue = st.queue ++ [e.2] := by
        unfold propStep
        rw [if_pos hv]
        show (if _ then st.queue else _) = _
        rw [if_neg hlen]
      have hupd := sum_update hn (hmem hv) (fun y => (st.pts y).length)
        (fun y => ((propStep v l st e).pts y).length)
        (fun y hy => by simp only [propStep_pts_of_ne hy])
      have hupd2 : (ns.map (fun y => ((propStep v l st e).pts y).length)).sum
            + (st.pts e.2).length =
          (ns.map (fun y => (st.pts y).length)).sum
            + ((propStep v l st e).pts e.2).length := hupd
      have htgt : ((propStep v l st e).pts e.2).length =
          (extendPts (st.pts e.2) l).length := by
        unfold propStep
        rw [if_pos hv]
        show (if e.2 = e.2 then extendPts (st.pts e.2) l else st.pts e.2).length = _
        rw [if_pos rfl]
      have hge : (st.pts e.2).length ≤ (extendPts (st.pts e.2) l).length :=
        extendPts_length_le
      rw [htgt] at hupd2
      rw [hq]
      unfold ptsSizeOn
      simp only [List.length_append, List.length_singleton]
      omega
  · have hstep : propStep v l st e = st := by
      unfold propStep
      rw [if_neg hv]
    rw [hstep]

theorem pfold_nodes (v : String) (l : List String)
    (es : List (String × String)) :
    ∀ st : SolverState, (pfold v l st es).nodes = st.nodes := by
  induction es with
  | nil => intro st; rfl
  | cons e es ih =>
    intro st
    show (pfold v l (propStep v l st e) es).nodes = st.nodes
    rw [ih, propStep_nodes]

theorem pfold_edges (v : String) (l : List String)
    (es : List (String × String)) :
    ∀ st : SolverState, (pfold v l st es).edges = st.edges := by
  induction es with
  | nil => intro st; rfl
  | cons e es ih =>
    intro st
    show (pfold v l (propStep v l st e) es).edges = st.edges
    rw [ih, propStep_edges]

theorem pfold_pts_mono {v : String} {l : List String}
    {es : List (String × String)} :
    ∀ {st : SolverState} {x o : String}, o ∈ st.pts x → o ∈ (pfold v l st es).pts x := by
  induction es with
  | nil => intro st x o h; exact h
  | cons e es ih =>
    intro st x o h
    exact ih (propStep_pts_mono h)

theorem pfold_pts_from {v : String} {l : List String}
    {es : List (String × String)} :
    ∀ {st : SolverState} {x o : String}, o ∈ (pfold v l st es).pts x →
      o ∈ st.pts x ∨ ((v, x) ∈ es ∧ o ∈ l) := by
  induction es with
  | nil => intro st x o h; exact Or.inl h
  | cons e es ih =>
    intro st x o h
    rcases ih h with h2 | ⟨h2, h3⟩
    · rcases propStep_pts_from h2 with h3 | ⟨hv, hx, ho⟩
      · exact Or.inl h3
      · refine Or.inr ⟨?_, ho⟩
        have : e = (v, x) := by
          rw [← hv, hx]
        rw [← this]
        exact List.mem_cons_self e es
    · exact Or.inr ⟨List.mem_cons_of_mem e h2, h3⟩

theorem pfold_complete {v : String} {l : List String}
    {es : List (String × String)} :
    ∀ {st : SolverState} {e0 : String × String}, e0 ∈ es → e0.1 = v →
      ∀ o ∈ l, o ∈ (pfold v l st es).pts e0.2 := by
  induction es with
  | nil => intro st e0 h; cases h
  | cons e es ih =>
    intro st e0 he0 hv o ho
    rcases List.mem_cons.mp he0 with rfl | he0
    · show o ∈ (pfold v l (propStep v l st e0) es).pts e0.2
      exact pfold_pts_mono (propStep_ensures hv ho)
    · exact ih he0 hv o ho

theorem pfold_queue_append (v : String) (l : List String)
    (es : List (String × String)) :
    ∀ st : SolverState, ∃ nq, (pfold v l st es).queue = st.queue ++ nq := by
  induction es with
  | nil => intro st; exact ⟨[], by simp [pfold]⟩
  | cons e es ih =>
    intro st
    obtain ⟨nq, hq⟩ := ih (propStep v l st e)
    rcases propStep_queue_cases v l st e with h | h <;> rw [h] at hq
    · exact ⟨nq, hq⟩
    · exact ⟨[e.2] ++ nq, by rw [← List.append_assoc]; exact hq⟩

theorem pfold_queue_mono {v : String} {l : List String}
    {es : List (String × String)} {st : SolverState} {x : String}
    (h : x ∈ st.queue) : x ∈ (pfold v l st es).queue := by
  obtain ⟨nq, hq⟩ := pfold_queue_append v l es st
  rw [hq]
  exact List.mem_append_left nq h

theorem pfold_growth {v : String} {l : List String}
    {es : List (String × String)} :
    ∀ {st : SolverState} {x o : String}, o ∈ (pfold v l st es).pts x →
      o ∈ st.pts x ∨ x ∈ (pfold v l st es).queue := by
  induction es with
  | nil => intro st x o h; exact Or.inl h
  | cons e es ih =>
    intro st x o h
    show o ∈ st.pts x ∨ x ∈ (pfold v l (propStep v l st e) es).queue
    rcases ih h with h2 | h2
    · by_cases h3 : o ∈ st.pts x
      · exact Or.inl h3
      · exact Or.inr (pfold_queue_mono (propStep_growth h2 h3))
    · exact Or.inr h2

theorem pfold_pts_of_src_ne {v : String} {l : List String}
    {es : List (String × String)} :
    ∀ {st : SolverState} {x : String}, (∀ e ∈ es, e.1 = v → e.2 ≠ x) →
      (pfold v l st es).pts x = st.pts x := by
  induction es with
  | nil => intro st x h; rfl
  | cons e es ih =>
    intro st x h
    show (pfold v l (propStep v l st e) es).pts x = st.pts x
    rw [ih (fun e2 he2 => h e2 (List.mem_cons_of_mem e he2))]
    by_cases hv : e.1 = v
    · exact propStep_pts_of_ne (fun hx => h e (List.mem_cons_self e es) hv hx.symm)
    · unfold propStep
      rw [if_neg hv]

theorem pfold_pts_len_le (v : String) (l : List String)
    (es : List (String × String)) :
    ∀ (st : SolverState) (x : String),
      (st.pts x).length ≤ ((pfold v l st es).pts x).length := by
  induction es with
  | nil => intro st x; exact le_refl _
  | cons e es ih =>
    intro st x
    exact le_trans (propStep_pts_len_le v l st e x) (ih (propStep v l st e) x)

theorem pfold_pts_nodup {v : String} {l : List String}
    {es : List (String × String)} :
    ∀ {st : SolverState}, (∀ x, (st.pts x).Nodup) →
      ∀ x, ((pfold v l st es).pts x).Nodup := by
  induction es with
  | nil => intro st h; exact h
  | cons e es ih =>
    intro st h
    exact ih (propStep_pts_nodup h)

theorem pfold_measure {ns : List String} (hn : ns.Nodup) {v : String}
    {l : List String} {es : List (String × String)} :
    ∀ {st : SolverState}, (∀ e ∈ es, e.1 = v → e.2 ∈ ns) →
      (pfold v l st es).queue.length + ptsSizeOn ns st ≤
        st.queue.length + ptsSizeOn ns (pfold v l st es) := by
  induction es with
  | nil => intro st h; exact le_refl _
  | cons e es ih =>
    intro st h
    have h1 : (propStep v l st e).queue.length + ptsSizeOn ns st ≤
        st.queue.length + ptsSizeOn ns (propStep v l st e) :=
      propStep_measure hn (h e (List.mem_cons_self e es))
    have h2 : (pfold v l (propStep v l st e) es).queue.length +
          ptsSizeOn ns (propStep v l st e) ≤
        (propStep v l st e).queue.length +
          ptsSizeOn ns (pfold v l (propStep v l st e) es) :=
      ih (fun e2 he2 => h e2 (List.mem_cons_of_mem e he2))
    show (pfold v l (propStep v l st e) es).queue.length + ptsSizeOn ns st ≤
      st.queue.length + ptsSizeOn ns (pfold v l (propStep v l st e) es)
    omega

/-! ### The solver invariant

`Inv` holds at the start of `solve_complex_edges` and is preserved by every
loop iteration (any pop choice, any points-to iteration order).  It packages
the structural facts (the node universe is fixed, points-to sets are
duplicate-free and draw from the universe, dynamically added edges are
deduplicated), the base facts (every `Addr` fact is present, every `Equal`
edge is present), the worklist closure invariants (an unsaturated edge
source, or an unresolved dereference pivot, is still queued), and soundness
with respect to the declarative system `Deriv`. -/

structure SolverInv (cs : List Constraint) (st : SolverState) : Prop where
  nodesEq : st.nodes = init_nodes cs
  ptsNodup : ∀ x, (st.pts x).Nodup
  ptsSub : ∀ x o, o ∈ st.pts x → o ∈ init_nodes cs
  ptsSupport : ∀ x, st.pts x ≠ [] → x ∈ init_nodes cs
  edgesSub : ∀ e ∈ st.edges, e.1 ∈ init_nodes cs ∧ e.2 ∈ init_nodes cs
  edgesSplit : ∃ extra, st.edges = init_simple_edges cs ++ extra ∧ extra.Nodup ∧
    ∀ e ∈ extra, e ∉ init_simple_edges cs
  addrFacts : ∀ c ∈ cs, c.kind = ConstraintKind.Addr → c.right ∈ st.pts c.left
  closure1 : ∀ e ∈ st.edges, e.1 ∈ st.queue ∨ ∀ o ∈ st.pts e.1, o ∈ st.pts e.2
  closure2 : ∀ c ∈ cs, c.kind = ConstraintKind.DerefRight →
    c.right ∈ st.queue ∨ ∀ o ∈ st.pts c.right, (o, c.left) ∈ st.edges
  closure3 : ∀ c ∈ cs, c.kind = ConstraintKind.DerefLeft →
    c.left ∈ st.queue ∨ ∀ o ∈ st.pts c.left, (c.right, o) ∈ st.edges
  soundPts : ∀ x o, o ∈ st.pts x → Deriv cs (AFact.pt x o)
  soundEdges : ∀ e ∈ st.edges, Deriv cs (AFact.edge e.1 e.2)

theorem mem_init_queue {cs : List Constraint} {x : String} :
    x ∈ (initState cs).queue ↔ x ∈ init_nodes cs ∧ init_basic_ptrs cs x ≠ [] := by
  show x ∈ (init_nodes cs).filter (fun v => !(init_basic_ptrs cs v).isEmpty) ↔ _
  rw [List.mem_filter]
  simp [List.isEmpty_iff]

theorem inv_init (cs : List Constraint) : SolverInv cs (initState cs) := by
  refine ⟨rfl, init_basic_ptrs_nodup cs, ?_, ?_, ?_, ?_, ?_, ?_, ?_, ?_, ?_, ?_⟩
  · intro x o h
    obtain ⟨c, hc, -, -, hr⟩ := mem_init_basic_ptrs.mp h
    rw [← hr]
    exact right_mem_init_nodes hc
  · intro x h
    obtain ⟨o, ho⟩ := List.exists_mem_of_ne_nil _ h
    obtain ⟨c, hc, -, hl, -⟩ := mem_init_basic_ptrs.mp ho
    rw [← hl]
    exact left_mem_init_nodes hc
  · intro e he
    obtain ⟨c, hc, -, rfl⟩ := mem_init_simple_edges.mp he
    exact ⟨right_mem_init_nodes hc, left_mem_init_nodes hc⟩
  · exact ⟨[], by rw [List.append_nil]; rfl, List.nodup_nil, by simp⟩
  · intro c hc hk
    exact mem_init_basic_ptrs.mpr ⟨c, hc, hk, rfl, rfl⟩
  · intro e he
    by_cases hp : init_basic_ptrs cs e.1 = []
    · right
      intro o ho
      rw [show (initState cs).pts = init_basic_ptrs cs from rfl, hp] at ho
      cases ho
    · left
      obtain ⟨c, hc, -, rfl⟩ := mem_init_simple_edges.mp he
      exact mem_init_queue.mpr ⟨right_mem_init_nodes hc, hp⟩
  · intro c hc hk
    by_cases hp : init_basic_ptrs cs c.right = []
    · right
      intro o ho
      rw [show (initState cs).pts = init_basic_ptrs cs from rfl, hp] at ho
      cases ho
    · left
      exact mem_init_queue.mpr ⟨right_mem_init_nodes hc, hp⟩
  · intro c hc hk
    by_cases hp : init_basic_ptrs cs c.left = []
    · right
      intro o ho
      rw [show (initState cs).pts = init_basic_ptrs cs from rfl, hp] at ho
      cases ho
    · left
      exact mem_init_queue.mpr ⟨left_mem_init_nodes hc, hp⟩
  · intro x o h
    obtain ⟨⟨cl, cr, ck⟩, hc, hk, hl, hr⟩ := mem_init_basic_ptrs.mp h
    dsimp only at hk hl hr
    subst hk hl hr
    exact Deriv.addr hc
  · intro e he
    obtain ⟨⟨cl, cr, ck⟩, hc, hk, he2⟩ := mem_init_simple_edges.mp he
    dsimp only at hk he2
    subst hk he2
    exact Deriv.equal hc

/-! ### Step preservation and measure decrease -/

theorem mem_of_not_mem_erase {q : List String} {x y : String} (hx : x ∈ q)
    (hne : x ∉ q.erase y) : x = y := by
  by_contra h
  exact hne ((List.mem_erase_of_ne h).mpr hx)

theorem sum_le_length_mul {ns : List String} {f : String → Nat} {N : Nat}
    (h : ∀ x ∈ ns, f x ≤ N) : (ns.map f).sum ≤ ns.length * N := by
  induction ns with
  | nil => simp
  | cons a tl ih =>
    simp only [List.map_cons, List.sum_cons, List.length_cons]
    have h1 := h a (List.mem_cons_self a tl)
    have h2 := ih (fun x hx => h x (List.mem_cons_of_mem a hx))
    rw [Nat.succ_mul]
    omega

theorem inv_edges_le {cs : List Constraint} {st : SolverState}
    (hInv : SolverInv cs st) : st.edges.length ≤ edgeBound cs := by
  obtain ⟨extra, hsplit, hnodup, hdisj⟩ := hInv.edgesSplit
  have hsub : extra ⊆ (init_nodes cs).product (init_nodes cs) := by
    intro e he
    have hmem : e ∈ st.edges := by
      rw [hsplit]
      exact List.mem_append_right _ he
    obtain ⟨h1, h2⟩ := hInv.edgesSub e hmem
    obtain ⟨a, b⟩ := e
    exact List.pair_mem_product.mpr ⟨h1, h2⟩
  have hlen : extra.length ≤ (init_nodes cs).length * (init_nodes cs).length :=
    le_trans (hnodup.subperm hsub).length_le
      (le_of_eq (List.length_product (init_nodes cs) (init_nodes cs)))
  rw [hsplit, List.length_append]
  unfold edgeBound
  omega

theorem inv_pts_le {cs : List Constraint} {st : SolverState}
    (hInv : SolverInv cs st) : ptsSizeOn (init_nodes cs) st ≤ ptsBound cs := by
  unfold ptsSizeOn ptsBound
  apply sum_le_length_mul
  intro x hx
  exact ((hInv.ptsNodup x).subperm (fun o ho => hInv.ptsSub x o ho)).length_le

/-- One loop iteration (any pop choice `v`, any points-to iteration order
`l`) preserves the invariant and strictly decreases the measure. -/
theorem step_spec {cs : List Constraint} {st st' : SolverState} {v : String}
    {l : List String} (hInv : SolverInv cs st) (hv : v ∈ st.queue)
    (hl : l.Perm (st.pts v))
    (hp : processNodeL cs (popQueue st v) v l = some st') :
    SolverInv cs st' ∧ mu cs st' < mu cs st := by
  unfold processNodeL at hp
  rw [derefPhase_eq_dfold cs v l (popQueue st v)] at hp
  obtain ⟨ne, hn1, hpts1, he1, hq1, hnodup, hfresh, hmatch⟩ :=
    dfold_spec v (l.flatMap (fun a => cs.map (fun c => (a, c)))) (popQueue st v)
  set ps := l.flatMap (fun a => cs.map (fun c => (a, c))) with hps
  set st1 := dfold v (popQueue st v) ps with hst1
  have hn1' : st1.nodes = st.nodes := hn1
  have hpts1' : st1.pts = st.pts := hpts1
  have he1' : st1.edges = st.edges ++ ne := he1
  have hq1' : st1.queue = st.queue.erase v ++ ne.map Prod.fst := hq1
  have hfresh' : ∀ e ∈ ne, e ∉ st.edges := hfresh
  by_cases hself : (v, v) ∈ st1.edges
  · rw [if_pos hself] at hp
    exact absurd hp (by simp)
  rw [if_neg hself] at hp
  cases hp
  rw [propagationPhase_eq_pfold]
  -- basic consequences
  have hsrc_ne : ∀ e ∈ st1.edges, e.1 = v → e.2 ≠ v := by
    rintro ⟨a, b⟩ he h1 h2
    dsimp only at h1 h2
    subst h1 h2
    exact hself he
  have hmeml : ∀ {o : String}, o ∈ l → o ∈ st.pts v := fun ho => hl.mem_iff.mp ho
  have hmeml2 : ∀ {o : String}, o ∈ st.pts v → o ∈ l := fun ho => hl.mem_iff.mpr ho
  have hedgesSub1 : ∀ e ∈ st1.edges, e.1 ∈ init_nodes cs ∧ e.2 ∈ init_nodes cs := by
    intro e he
    rw [he1'] at he
    rcases List.mem_append.mp he with hold | hnew
    · exact hInv.edgesSub e hold
    · obtain ⟨p, hp2, hm⟩ := hmatch e hnew
      obtain ⟨hpl, hpc⟩ := mem_derefPairs.mp hp2
      rcases hm with ⟨hk, hr, rfl⟩ | ⟨hk, hlf, rfl⟩
      · exact ⟨hInv.ptsSub v p.1 (hmeml hpl), left_mem_init_nodes hpc⟩
      · exact ⟨right_mem_init_nodes hpc, hInv.ptsSub v p.1 (hmeml hpl)⟩
  have hsoundPts0 : ∀ o ∈ l, Deriv cs (AFact.pt v o) :=
    fun o ho => hInv.soundPts v o (hmeml ho)
  have hsoundEdges1 : ∀ e ∈ st1.edges, Deriv cs (AFact.edge e.1 e.2) := by
    intro e he
    rw [he1'] at he
    rcases List.mem_append.mp he with hold | hnew
    · exact hInv.soundEdges e hold
    · obtain ⟨p, hp2, hm⟩ := hmatch e hnew
      obtain ⟨hpl, hpc⟩ := mem_derefPairs.mp hp2
      rcases hm with ⟨hk, hr, rfl⟩ | ⟨hk, hlf, rfl⟩
      · have hmk : Constraint.mk p.2.left p.2.right ConstraintKind.DerefRight ∈ cs := by
          rw [← hk]
          exact hpc
        exact Deriv.derefR hmk (by rw [hr]; exact hsoundPts0 p.1 hpl)
      · have hmk : Constraint.mk p.2.left p.2.right ConstraintKind.DerefLeft ∈ cs := by
          rw [← hk]
          exact hpc
        exact Deriv.derefL hmk (by rw [hlf]; exact hsoundPts0 p.1 hpl)
  have hpv : (pfold v l st1 st1.edges).pts v = st1.pts v :=
    pfold_pts_of_src_ne hsrc_ne
  -- the invariant at the new state
  have hInv' : SolverInv cs (pfold v l st1 st1.edges) := by
    refine ⟨?_, ?_, ?_, ?_, ?_, ?_, ?_, ?_, ?_, ?_, ?_, ?_⟩
    · rw [pfold_nodes, hn1', hInv.nodesEq]
    · exact pfold_pts_nodup (fun x => by rw [hpts1']; exact hInv.ptsNodup x)
    · intro x o ho
      rcases pfold_pts_from ho with hold | ⟨hedge, hol⟩
      · rw [hpts1'] at hold
        exact hInv.ptsSub x o hold
      · exact hInv.ptsSub v o (hmeml hol)
    · intro x hne0
      obtain ⟨o, ho⟩ := List.exists_mem_of_ne_nil _ hne0
      rcases pfold_pts_from ho with hold | ⟨hedge, -⟩
      · rw [hpts1'] at hold
        exact hInv.ptsSupport x (List.ne_nil_of_mem hold)
      · exact (hedgesSub1 _ hedge).2
    · intro e he
      rw [pfold_edges] at he
      exact hedgesSub1 e he
    · obtain ⟨extra, hsp, hnd, hdj⟩ := hInv.edgesSplit
      refine ⟨extra ++ ne, ?_, ?_, ?_⟩
      · rw [pfold_edges, he1', hsp, List.append_assoc]
      · rw [List.nodup_append]
        refine ⟨hnd, hnodup, fun e he hne2 => ?_⟩
        exact hfresh' e hne2 (by rw [hsp]; exact List.mem_append_right _ he)
      · intro e he
        rcases List.mem_append.mp he with h | h
        · exact hdj e h
        · intro hsimple
          exact hfresh' e h (by rw [hsp]; exact List.mem_append_left _ hsimple)
    · intro c hc hk
      exact pfold_pts_mono (by rw [hpts1']; exact hInv.addrFacts c hc hk)
    · intro e he
      rw [pfold_edges, he1'] at he
      rcases List.mem_append.mp he with hold | hnew
      · rcases hInv.closure1 e hold with hq | hsat
        · by_cases hqe : e.1 ∈ st.queue.erase v
          · left
            apply pfold_queue_mono
            rw [hq1']
            exact List.mem_append_left _ hqe
          · have hev : e.1 = v := mem_of_not_mem_erase hq hqe
            right
            intro o ho
            rw [hev] at ho
            rw [hpv, hpts1'] at ho
            have hem : e ∈ st1.edges := by
              rw [he1']
              exact List.mem_append_left _ hold
            exact pfold_complete hem hev o (hmeml2 ho)
        · by_cases hq2 : e.1 ∈ (pfold v l st1 st1.edges).queue
          · left
            exact hq2
          · right
            intro o ho
            rcases pfold_growth ho with hold2 | hqq
            · rw [hpts1'] at hold2
              exact pfold_pts_mono (by rw [hpts1']; exact hsat o hold2)
            · exact absurd hqq hq2
      · left
        apply pfold_queue_mono
        rw [hq1']
        refine List.mem_append_right _ ?_
        exact List.mem_map.mpr ⟨e, hnew, rfl⟩
    · intro c hc hk
      by_cases hcr : c.right = v
      · right
        intro o ho
        rw [hcr, hpv, hpts1'] at ho
        have hpair : (o, c) ∈ ps := mem_derefPairs.mpr ⟨hmeml2 ho, hc⟩
        have hm : matchesDeref v (o, c) (o, c.left) := Or.inl ⟨hk, hcr, rfl⟩
        have hedge : (o, c.left) ∈ st1.edges :=
          dfold_complete v ps (popQueue st v) (o, c) hpair _ hm
        rw [pfold_edges]
        exact hedge
      · rcases hInv.closure2 c hc hk with hq | hres
        · left
          apply pfold_queue_mono
          rw [hq1']
          exact List.mem_append_left _ ((List.mem_erase_of_ne hcr).mpr hq)
        · by_cases hq2 : c.right ∈ (pfold v l st1 st1.edges).queue
          · left
            exact hq2
          · right
            intro o ho
            rcases pfold_growth ho with hold2 | hqq
            · rw [hpts1'] at hold2
              rw [pfold_edges, he1']
              exact List.mem_append_left _ (hres o hold2)
            · exact absurd hqq hq2
    · intro c hc hk
      by_cases hcl : c.left = v
      · right
        intro o ho
        rw [hcl, hpv, hpts1'] at ho
        have hpair : (o, c) ∈ ps := mem_derefPairs.mpr ⟨hmeml2 ho, hc⟩
        have hm : matchesDeref v (o, c) (c.right, o) := Or.inr ⟨hk, hcl, rfl⟩
        have hedge : (c.right, o) ∈ st1.edges :=
          dfold_complete v ps (popQueue st v) (o, c) hpair _ hm
        rw [pfold_edges]
        exact hedge
      · rcases hInv.closure3 c hc hk with hq | hres
        · left
          apply pfold_queue_mono
          rw [hq1']
          exact List.mem_append_left _ ((List.mem_erase_of_ne hcl).mpr hq)
        · by_cases hq2 : c.left ∈ (pfold v l st1 st1.edges).queue
          · left
            exact hq2
          · right
            intro o ho
            rcases pfold_growth ho with hold2 | hqq
            · rw [hpts1'] at hold2
              rw [pfold_edges, he1']
              exact List.mem_append_left _ (hres o hold2)
            · exact absurd hqq hq2
    · intro x o ho
      rcases pfold_pts_from ho with hold | ⟨hedge, hol⟩
      · rw [hpts1'] at hold
        exact hInv.soundPts x o hold
      · exact Deriv.prop (hsoundEdges1 (v, x) hedge) (hsoundPts0 o hol)
    · intro e he
      rw [pfold_edges] at he
      exact hsoundEdges1 e he
  refine ⟨hInv', ?_⟩
  -- measure decrease
  have a1 : st1.edges.length = st.edges.length + ne.length := by
    rw [he1', List.length_append]
  have a2 : st1.queue.length = (st.queue.erase v).length + ne.length := by
    rw [hq1', List.length_append, List.length_map]
  have a3 : (st.queue.erase v).length = st.queue.length - 1 :=
    List.length_erase_of_mem hv
  have a4 : 1 ≤ st.queue.length := List.length_pos.mpr (List.ne_nil_of_mem hv)
  have a5 : (pfold v l st1 st1.edges).queue.length + ptsSizeOn (init_nodes cs) st1 ≤
      st1.queue.length + ptsSizeOn (init_nodes cs) (pfold v l st1 st1.edges) :=
    pfold_measure (init_nodes_nodup cs) (fun e he h1 => (hedgesSub1 e he).2)
  have a6 : ptsSizeOn (init_nodes cs) st1 = ptsSizeOn (init_nodes cs) st := by
    unfold ptsSizeOn
    rw [hpts1']
  have a7 : ptsSizeOn (init_nodes cs) st ≤
      ptsSizeOn (init_nodes cs) (pfold v l st1 st1.edges) := by
    rw [← a6]
    exact ptsSizeOn_le_of_pointwise (fun x => pfold_pts_len_le v l st1.edges st1 x)
  have a8 : (pfold v l st1 st1.edges).edges.length = st1.edges.length := by
    rw [pfold_edges]
  have a9 : (pfold v l st1 st1.edges).edges.length ≤ edgeBound cs := inv_edges_le hInv'
  have a10 : ptsSizeOn (init_nodes cs) (pfold v l st1 st1.edges) ≤ ptsBound cs :=
    inv_pts_le hInv'
  unfold mu ptsSize
  omega

/-! ### Loop-level lemmas: invariant along the loop, fuel sufficiency,
fuel irrelevance, and the link from the fueled FIFO loop to `Run`. -/

theorem loopFuel_zero {cs : List Constraint} {st : SolverState} :
    loopFuel cs 0 st = if st.queue = [] then some (some st) else none := by
  rw [loopFuel.eq_def]

theorem loopFuel_succ_nil {cs : List Constraint} {st : SolverState} {n : Nat}
    (hq : st.queue = []) : loopFuel cs (n + 1) st = some (some st) := by
  rw [loopFuel.eq_def]
  simp only []
  rw [hq]

theorem loopFuel_succ_cons {cs : List Constraint} {st : SolverState} {n : Nat}
    {v : String} {q : List String} (hq : st.queue = v :: q) :
    loopFuel cs (n + 1) st =
      match processNodeL cs { st with queue := q } v (st.pts v) with
      | none => some none
      | some st1 => loopFuel cs n st1 := by
  rw [loopFuel.eq_def]
  simp only []
  rw [hq]

theorem popQueue_cons {st : SolverState} {v : String} {q : List String}
    (hq : st.queue = v :: q) : popQueue st v = { st with queue := q } := by
  unfold popQueue
  rw [hq, List.erase_cons_head]

/-- Fuel monotonicity: a verdict reached with `n` steps of fuel is stable
under more fuel. -/
theorem loopFuel_succ_of_some {cs : List Constraint} :
    ∀ {n : Nat} {st : SolverState} {r : Option SolverState},
      loopFuel cs n st = some r → loopFuel cs (n + 1) st = some r := by
  intro n
  induction n with
  | zero =>
    intro st r h
    rw [loopFuel_zero] at h
    by_cases hq : st.queue = []
    · rw [if_pos hq] at h
      rw [loopFuel_succ_nil hq]
      exact h
    · rw [if_neg hq] at h
      exact absurd h (by simp)
  | succ n ih =>
    intro st r h
    cases hq : st.queue with
    | nil =>
      rw [loopFuel_succ_nil hq] at h
      rw [loopFuel_succ_nil hq]
      exact h
    | cons v q =>
      rw [loopFuel_succ_cons hq] at h
      rw [loopFuel_succ_cons hq]
      revert h
      cases processNodeL cs { st with queue := q } v (st.pts v) with
      | none => exact fun h => h
      | some st1 => exact fun h => ih h

theorem loopFuel_add {cs : List Constraint} {n : Nat} {st : SolverState}
    {r : Option SolverState} (h : loopFuel cs n st = some r) :
    ∀ k, loopFuel cs (n + k) st = some r := by
  intro k
  induction k with
  | zero => exact h
  | succ k ih => exact loopFuel_succ_of_some ih

theorem loopFuel_mono {cs : List Constraint} {n m : Nat} {st : SolverState}
    {r : Option SolverState} (hnm : n ≤ m) (h : loopFuel cs n st = some r) :
    loopFuel cs m st = some r := by
  obtain ⟨k, rfl⟩ := Nat.le.dest hnm
  exact loopFuel_add h k

/-- Fuel `mu` suffices: the loop reaches a verdict (normal completion or the
`RefCell` panic) within `mu` iterations. -/
theorem loopFuel_sufficient {cs : List Constraint} :
    ∀ {n : Nat} {st : SolverState}, SolverInv cs st → mu cs st ≤ n →
      (loopFuel cs n st).isSome = true := by
  intro n
  induction n with
  | zero =>
    intro st hInv hmu
    have hq : st.queue = [] := by
      have hlen : st.queue.length = 0 := by
        unfold mu at hmu
        omega
      exact List.length_eq_zero.mp hlen
    rw [loopFuel_zero, if_pos hq]
    rfl
  | succ n ih =>
    intro st hInv hmu
    cases hq : st.queue with
    | nil =>
      rw [loopFuel_succ_nil hq]
      rfl
    | cons v q =>
      rw [loopFuel_succ_cons hq]
      cases hp : processNodeL cs { st with queue := q } v (st.pts v) with
      | none => rfl
      | some st1 =>
        have hv : v ∈ st.queue := by
          rw [hq]
          exact List.mem_cons_self v q
        have hp2 : processNodeL cs (popQueue st v) v (st.pts v) = some st1 := by
          rw [popQueue_cons hq]
          exact hp
        obtain ⟨hInv1, hlt⟩ := step_spec hInv hv (List.Perm.refl _) hp2
        exact ih hInv1 (by omega)

/-- Along the fueled loop, normal completion yields the invariant with an
empty worklist. -/
theorem loopFuel_inv {cs : List Constraint} :
    ∀ {n : Nat} {st st' : SolverState}, loopFuel cs n st = some (some st') →
      SolverInv cs st → SolverInv cs st' ∧ st'.queue = [] := by
  intro n
  induction n with
  | zero =>
    intro st st' h hInv
    rw [loopFuel_zero] at h
    by_cases hq : st.queue = []
    · rw [if_pos hq] at h
      simp only [Option.some.injEq] at h
      rw [← h]
      exact ⟨hInv, hq⟩
    · rw [if_neg hq] at h
      exact absurd h (by simp)
  | succ n ih =>
    intro st st' h hInv
    cases hq : st.queue with
    | nil =>
      rw [loopFuel_succ_nil hq] at h
      simp only [Option.some.injEq] at h
      rw [← h]
      exact ⟨hInv, hq⟩
    | cons v q =>
      rw [loopFuel_succ_cons hq] at h
      revert h
      cases hp : processNodeL cs { st with queue := q } v (st.pts v) with
      | none =>
        intro h
        simp at h
      | some st1 =>
        intro h
        have hv : v ∈ st.queue := by
          rw [hq]
          exact List.mem_cons_self v q
        have hp2 : processNodeL cs (popQueue st v) v (st.pts v) = some st1 := by
          rw [popQueue_cons hq]
          exact hp
        obtain ⟨hInv1, -⟩ := step_spec hInv hv (List.Perm.refl _) hp2
        exact ih h hInv1

/-- The fueled FIFO loop is one schedule of the nondeterministic `Run`. -/
theorem loopFuel_run {cs : List Constraint} :
    ∀ {n : Nat} {st st' : SolverState}, loopFuel cs n st = some (some st') →
      Run cs st st' := by
  intro n
  induction n with
  | zero =>
    intro st st' h
    rw [loopFuel_zero] at h
    by_cases hq : st.queue = []
    · rw [if_pos hq] at h
      simp only [Option.some.injEq] at h
      rw [← h]
      exact Run.refl st
    · rw [if_neg hq] at h
      exact absurd h (by simp)
  | succ n ih =>
    intro st st' h
    cases hq : st.queue with
    | nil =>
      rw [loopFuel_succ_nil hq] at h
      simp only [Option.some.injEq] at h
      rw [← h]
      exact Run.refl st
    | cons v q =>
      rw [loopFuel_succ_cons hq] at h
      revert h
      cases hp : processNodeL cs { st with queue := q } v (st.pts v) with
      | none =>
        intro h
        simp at h
      | some st1 =>
        intro h
        have hv : v ∈ st.queue := by
          rw [hq]
          exact List.mem_cons_self v q
        have hp2 : processNodeL cs (popQueue st v) v (st.pts v) = some st1 := by
          rw [popQueue_cons hq]
          exact hp
        exact Run.step hv (List.Perm.refl _) hp2 (ih h)

/-- `Run` preserves the invariant. -/
theorem run_inv {cs : List Constraint} {st st' : SolverState}
    (hrun : Run cs st st') (hInv : SolverInv cs st) : SolverInv cs st' := by
  induction hrun with
  | refl st => exact hInv
  | step hv hl hp _ ih => exact ih (step_spec hInv hv hl hp).1

/-! ### Fixpoint characterization -/

/-- At a closed state (invariant holds, worklist empty) every derivable fact
is present: the state is a fixpoint containing the least fixpoint. -/
theorem closed_complete {cs : List Constraint} {st : SolverState}
    (hInv : SolverInv cs st) (hq : st.queue = []) :
    ∀ {f : AFact}, Deriv cs f → holds st f := by
  intro f hd
  induction hd with
  | addr h => exact hInv.addrFacts _ h rfl
  | equal h =>
    obtain ⟨extra, hsp, -, -⟩ := hInv.edgesSplit
    show (_, _) ∈ st.edges
    rw [hsp]
    exact List.mem_append_left _ (mem_init_simple_edges.mpr ⟨_, h, rfl, rfl⟩)
  | derefR h _ ih =>
    rcases hInv.closure2 _ h rfl with hque | hres
    · rw [hq] at hque
      cases hque
    · exact hres _ ih
  | derefL h _ ih =>
    rcases hInv.closure3 _ h rfl with hque | hres
    · rw [hq] at hque
      cases hque
    · exact hres _ ih
  | prop _ _ ih1 ih2 =>
    rcases hInv.closure1 _ ih1 with hque | hsat
    · rw [hq] at hque
      cases hque
    · exact hsat _ ih2

/-- At any closed state the points-to sets are exactly the derivable facts —
in particular they do not depend on the schedule that reached the state. -/
theorem final_pts_iff {cs : List Constraint} {st : SolverState}
    (hInv : SolverInv cs st) (hq : st.queue = []) (v o : String) :
    o ∈ st.pts v ↔ Deriv cs (AFact.pt v o) :=
  ⟨hInv.soundPts v o, fun h => closed_complete hInv hq h⟩

/-- Every derivable points-to fact stems from an `Addr` constraint's right
operand. -/
theorem deriv_pt_origin {cs : List Constraint} :
    ∀ {f : AFact}, Deriv cs f → ∀ v o, f = AFact.pt v o →
      ∃ c ∈ cs, c.kind = ConstraintKind.Addr ∧ c.right = o := by
  intro f hd
  induction hd with
  | addr h =>
    intro v o he
    cases he
    exact ⟨_, h, rfl, rfl⟩
  | equal h =>
    intro v o he
    cases he
  | derefR h _ ih =>
    intro v o he
    cases he
  | derefL h _ ih =>
    intro v o he
    cases he
  | prop _ _ ih1 ih2 =>
    intro v o he
    cases he
    exact ih2 _ _ rfl

/-! ### Solve-level lemmas -/

theorem solveOpt_eq_loopFuel {cs : List Constraint} {st : SolverState}
    (h : solveOpt cs = some st) :
    loopFuel cs (fuelBound cs) (initState cs) = some (some st) := by
  unfold solveOpt at h
  revert h
  cases hl : loopFuel cs (fuelBound cs) (initState cs) with
  | none =>
    intro h
    simp at h
  | some r =>
    intro h
    have h2 : r = some st := h
    rw [h2]

theorem solveOpt_spec {cs : List Constraint} {st : SolverState}
    (h : solveOpt cs = some st) : SolverInv cs st ∧ st.queue = [] :=
  loopFuel_inv (solveOpt_eq_loopFuel h) (inv_init cs)

theorem solveOpt_toRun {cs : List Constraint} {st : SolverState}
    (h : solveOpt cs = some st) : Run cs (initState cs) st :=
  loopFuel_run (solveOpt_eq_loopFuel h)

/-- A successful `processNodeL` only grows points-to sets and keeps the node
list. -/
theorem processNodeL_mono {cs : List Constraint} {st : SolverState}
    {v : String} {l : List String} {st' : SolverState}
    (h : processNodeL cs st v l = some st') :
    (∀ x o, o ∈ st.pts x → o ∈ st'.pts x) ∧ st'.nodes = st.nodes := by
  unfold processNodeL at h
  rw [derefPhase_eq_dfold cs v l st] at h
  obtain ⟨ne, hn1, hpts1, he1, hq1, -, -, -⟩ :=
    dfold_spec v (l.flatMap (fun a => cs.map (fun c => (a, c)))) st
  by_cases hself :
      (v, v) ∈ (dfold v st (l.flatMap (fun a => cs.map (fun c => (a, c))))).edges
  · rw [if_pos hself] at h
    exact absurd h (by simp)
  · rw [if_neg hself] at h
    have h2 := Option.some.inj h
    rw [← h2, propagationPhase_eq_pfold]
    constructor
    · intro x o ho
      apply pfold_pts_mono
      rw [hpts1]
      exact ho
    · rw [pfold_nodes]
      exact hn1

/-- Under an invariant state, edges are duplicate-free as soon as the static
`Equal` edges are. -/
theorem edges_nodup_of_inv {cs : List Constraint} {st : SolverState}
    (hInv : SolverInv cs st) (hs : (init_simple_edges cs).Nodup) :
    st.edges.Nodup := by
  obtain ⟨extra, hsp, hnd, hdj⟩ := hInv.edgesSplit
  rw [hsp, List.nodup_append]
  exact ⟨hs, hnd, fun e he hex => hdj e hex he⟩

/-! ### Claim theorems -/

/-- Demonstration input `a = &b; c = a;`: the solver completes on it. -/
def demoCs : List Constraint :=
  [⟨"a", "b", ConstraintKind.Addr⟩, ⟨"c", "a", ConstraintKind.Equal⟩]

/-- C1: after `solve` returns on a constraint list, the points-to sets are
closed under all constraints — for every `Equal` constraint (edge
`right → left` installed by `init_simple_edges`), `points_to(left)` contains
`points_to(right)`; for every `DerefRight` constraint `left = *right` and
every `o` in `points_to(right)`, `points_to(left)` contains `points_to(o)`;
for every `DerefLeft` constraint `*left = right` and every `o` in
`points_to(left)`, `points_to(o)` contains `points_to(right)`. -/
theorem spec_C1 (cs : List Constraint) (st : SolverState)
    (h : solveOpt cs = some st) :
    (∀ c ∈ cs, c.kind = ConstraintKind.Equal →
      ∀ o ∈ st.pts c.right, o ∈ st.pts c.left) ∧
    (∀ c ∈ cs, c.kind = ConstraintKind.DerefRight →
      ∀ o ∈ st.pts c.right, ∀ x ∈ st.pts o, x ∈ st.pts c.left) ∧
    (∀ c ∈ cs, c.kind = ConstraintKind.DerefLeft →
      ∀ o ∈ st.pts c.left, ∀ x ∈ st.pts c.right, x ∈ st.pts o) := by
  obtain ⟨hInv, hq⟩ := solveOpt_spec h
  have hedge : ∀ s t, (s, t) ∈ st.edges → ∀ o ∈ st.pts s, o ∈ st.pts t := by
    intro s t he o ho
    rcases hInv.closure1 (s, t) he with hque | hsat
    · rw [hq] at hque
      cases hque
    · exact hsat o ho
  refine ⟨?_, ?_, ?_⟩
  · intro c hc hk o ho
    obtain ⟨extra, hsp, -, -⟩ := hInv.edgesSplit
    have he : (c.right, c.left) ∈ st.edges := by
      rw [hsp]
      exact List.mem_append_left _ (mem_init_simple_edges.mpr ⟨c, hc, hk, rfl⟩)
    exact hedge _ _ he o ho
  · intro c hc hk o ho x hx
    rcases hInv.closure2 c hc hk with hque | hres
    · rw [hq] at hque
      cases hque
    · exact hedge _ _ (hres o ho) x hx
  · intro c hc hk o ho x hx
    rcases hInv.closure3 c hc hk with hque | hres
    · rw [hq] at hque
      cases hque
    · exact hedge _ _ (hres o ho) x hx

theorem spec_C1_witness : "b" ∈ (solveSt demoCs).pts "c" :=
  (spec_C1 demoCs (solveSt demoCs) rfl).1 ⟨"c", "a", ConstraintKind.Equal⟩
    (by decide) rfl "b" (by decide)

/-- The input `a = &b; a = a;` parses; on it `solve_complex_edges` pops `a`
(non-empty points-to set), holds `a`'s `RefCell` borrowed shared, and the
propagation step then calls `borrow_mut` on the target of the self-loop edge
`a → a` installed by `init_simple_edges` — a `BorrowMutError` panic, modelled
as the `none` result. -/
def panicCs : List Constraint :=
  [⟨"a", "b", ConstraintKind.Addr⟩, ⟨"a", "a", ConstraintKind.Equal⟩]

/-- C2: the claim that the analysis runs to completion (every `RefCell`
borrow succeeds) on every parsed constraint list is contradicted by the
code: the parsed input `a = &b; a = a;` makes `solve_complex_edges` panic
with a `RefCell` double borrow, modelled here by `solveOpt` returning
`none`. -/
theorem spec_C2_panic :
    parse_constraint_list "a = &b; a = a;" = some panicCs ∧
    solveOpt panicCs = none := by
  constructor
  · decide
  · rfl

/-- Two identical `Equal` constraints: `init_simple_edges` installs the edge
`b → a` twice (`add_edge` never checks for duplicates). -/
def dupEqualCs : List Constraint :=
  [⟨"a", "b", ConstraintKind.Equal⟩, ⟨"a", "b", ConstraintKind.Equal⟩]

/-- C3 counterexample: after `solve` on the repeated `Equal` list
`a = b; a = b;`, the edge `b → a` is present twice — the graph does not
keep at most one edge per ordered pair. -/
theorem spec_C3_counterexample :
    2 ≤ (solveSt dupEqualCs).edges.count ("b", "a") := by
  decide

/-- C3 amended: dynamic (dereference-phase) edge additions are always
deduplicated via `contains_edge`, so whenever the static `Equal` edges are
themselves duplicate-free (no repeated `Equal` constraint), every state
during `solve` (any schedule) and the final state of a successful `solve`
carry a duplicate-free edge list — at most one edge per ordered pair;
duplicates can arise only from repeated `Equal` constraints in
`init_simple_edges`. -/
theorem spec_C3_amended (cs : List Constraint)
    (hs : (init_simple_edges cs).Nodup) :
    (∀ st, Run cs (initState cs) st → st.edges.Nodup) ∧
    (∀ st, solveOpt cs = some st → st.edges.Nodup) := by
  constructor
  · intro st hrun
    exact edges_nodup_of_inv (run_inv hrun (inv_init cs)) hs
  · intro st h
    exact edges_nodup_of_inv (solveOpt_spec h).1 hs

theorem spec_C3_amended_witness : (solveSt demoCs).edges.Nodup :=
  (spec_C3_amended demoCs (by decide)).2 (solveSt demoCs) rfl

/-- C4: the worklist loop terminates on every finite constraint list — the
computed fuel `fuelBound` (edge-count slack plus points-to slack plus queue
length) makes the fueled loop reach a verdict, and any larger fuel yields
the same verdict, so the fueled embedding is a total function of the
input. -/
theorem spec_C4 (cs : List Constraint) :
    (loopFuel cs (fuelBound cs) (initState cs)).isSome = true ∧
    ∀ n, fuelBound cs ≤ n →
      loopFuel cs n (initState cs) = loopFuel cs (fuelBound cs) (initState cs) := by
  have hs : (loopFuel cs (fuelBound cs) (initState cs)).isSome = true :=
    loopFuel_sufficient (inv_init cs) (le_refl _)
  refine ⟨hs, fun n hn => ?_⟩
  obtain ⟨r, hr⟩ := Option.isSome_iff_exists.mp hs
  rw [hr]
  exact loopFuel_mono hn hr

theorem spec_C4_witness :
    (loopFuel demoCs (fuelBound demoCs) (initState demoCs)).isSome = true ∧
    loopFuel demoCs (fuelBound demoCs + 5) (initState demoCs) =
      loopFuel demoCs (fuelBound demoCs) (initState demoCs) :=
  ⟨(spec_C4 demoCs).1,
    (spec_C4 demoCs).2 (fuelBound demoCs + 5) (Nat.le_add_right _ 5)⟩

/-- C5: monotonicity — the `init_basic_ptrs` insertion step, each
dereference-resolution step, each propagation step, and a whole successful
loop iteration all leave every node's points-to set a superset of what it
was, and an iteration never removes a node. -/
theorem spec_C5 :
    (∀ (p : String → List String) (c : Constraint) (x o : String),
      o ∈ p x → o ∈ initPtsStep p c x) ∧
    (∀ (v : String) (st : SolverState) (a : String) (c : Constraint) (x o : String),
      o ∈ st.pts x → o ∈ (derefStep v st a c).pts x) ∧
    (∀ (v : String) (l : List String) (st : SolverState) (e : String × String)
      (x o : String), o ∈ st.pts x → o ∈ (propStep v l st e).pts x) ∧
    (∀ (cs : List Constraint) (st : SolverState) (v : String) (l : List String)
      (st' : SolverState), processNodeL cs st v l = some st' →
      (∀ x o, o ∈ st.pts x → o ∈ st'.pts x) ∧ st'.nodes = st.nodes) := by
  refine ⟨?_, ?_, ?_, ?_⟩
  · intro p c x o h
    exact mem_initPtsStep.mpr (Or.inl h)
  · intro v st a c x o h
    rcases derefStep_cases v st a c with heq | ⟨e, -, -, heq⟩ <;> rw [heq] <;> exact h
  · intro v l st e x o h
    exact propStep_pts_mono h
  · intro cs st v l st' h
    exact processNodeL_mono h

theorem spec_C5_witness :
    "b" ∈ initPtsStep (fun _ => ["b"]) ⟨"x", "y", ConstraintKind.Addr⟩ "a" :=
  spec_C5.1 (fun _ => ["b"]) ⟨"x", "y", ConstraintKind.Addr⟩ "a" "b" (by decide)

/-- C6: an identifier is in some points-to set (after a successful solve,
and already at any state reached during any schedule of the loop) exactly
when it occurs as the right operand of some `Addr` constraint; every such
address-taken identifier does enter the left operand's set. -/
theorem spec_C6 (cs : List Constraint) (st : SolverState)
    (h : solveOpt cs = some st) :
    (∀ v o, o ∈ st.pts v →
      ∃ c ∈ cs, c.kind = ConstraintKind.Addr ∧ c.right = o) ∧
    (∀ c ∈ cs, c.kind = ConstraintKind.Addr → c.right ∈ st.pts c.left) ∧
    (∀ st2, Run cs (initState cs) st2 → ∀ v o, o ∈ st2.pts v →
      ∃ c ∈ cs, c.kind = ConstraintKind.Addr ∧ c.right = o) := by
  obtain ⟨hInv, -⟩ := solveOpt_spec h
  refine ⟨?_, ?_, ?_⟩
  · intro v o ho
    exact deriv_pt_origin (hInv.soundPts v o ho) v o rfl
  · intro c hc hk
    exact hInv.addrFacts c hc hk
  · intro st2 hrun v o ho
    exact deriv_pt_origin ((run_inv hrun (inv_init cs)).soundPts v o ho) v o rfl

theorem spec_C6_witness :
    ∃ c ∈ demoCs, c.kind = ConstraintKind.Addr ∧ c.right = "b" :=
  (spec_C6 demoCs (solveSt demoCs) rfl).1 "c" "b" (by decide)

/-- C7: determinism of the fixpoint — any two complete runs of the worklist
loop from the same parsed input, whatever order they pop the worklist in and
whatever order they iterate the per-node points-to hash maps in, end with
the same points-to set for every variable (both equal the declarative least
fixpoint `Deriv`). -/
theorem spec_C7 (cs : List Constraint) (st1 st2 : SolverState)
    (h1 : Run cs (initState cs) st1) (h2 : Run cs (initState cs) st2)
    (hq1 : st1.queue = []) (hq2 : st2.queue = []) :
    ∀ v o, o ∈ st1.pts v ↔ o ∈ st2.pts v := by
  intro v o
  rw [final_pts_iff (run_inv h1 (inv_init cs)) hq1,
    final_pts_iff (run_inv h2 (inv_init cs)) hq2]

theorem spec_C7_witness :
    "b" ∈ (solveSt demoCs).pts "c" ↔ "b" ∈ (solveSt demoCs).pts "c" :=
  spec_C7 demoCs (solveSt demoCs) (solveSt demoCs)
    (solveOpt_toRun (show solveOpt demoCs = some (solveSt demoCs) from rfl))
    (solveOpt_toRun (show solveOpt demoCs = some (solveSt demoCs) from rfl))
    (solveOpt_spec (show solveOpt demoCs = some (solveSt demoCs) from rfl)).2
    (solveOpt_spec (show solveOpt demoCs = some (solveSt demoCs) from rfl)).2 "c" "b"

/-- C8: `parse_constraint_list` is `all_consuming` — whenever the
`many0`-with-trailing-whitespace pass leaves unconsumed input, parsing
returns an error and no constraint list is produced; in particular
`a == b` fails to parse. -/
theorem spec_C8 :
    (∀ s : String, (parse_list_raw s.data).2 ≠ [] →
      parse_constraint_list s = none) ∧
    parse_constraint_list "a == b" = none := by
  constructor
  · intro s h
    unfold parse_constraint_list
    rw [if_neg h]
  · decide

theorem spec_C8_witness : parse_constraint_list "a == b" = none :=
  spec_C8.1 "a == b" (by decide)

/-- C9: `add_node` is idempotent — adding an already-present identifier
changes nothing (node list, points-to sets, edges, queue are all
unchanged) — and the node set built by `init_nodes` is invariant under
permuting the constraint list. -/
theorem spec_C9 :
    (∀ (st : SolverState) (id : String), id ∈ st.nodes → add_node st id = st) ∧
    (∀ cs1 cs2 : List Constraint, cs1.Perm cs2 →
      ∀ x, x ∈ init_nodes cs1 ↔ x ∈ init_nodes cs2) := by
  constructor
  · intro st id h
    unfold add_node addId
    rw [if_pos h]
  · intro cs1 cs2 hperm x
    rw [mem_init_nodes, mem_init_nodes]
    constructor
    · rintro ⟨c, hc, ho⟩
      exact ⟨c, hperm.mem_iff.mp hc, ho⟩
    · rintro ⟨c, hc, ho⟩
      exact ⟨c, hperm.mem_iff.mpr hc, ho⟩

theorem spec_C9_witness : add_node (initState demoCs) "a" = initState demoCs :=
  spec_C9.1 (initState demoCs) "a" (by decide)

/-- C10: the statement separator is optional — `a = &b c = a`, with only a
space between the two statements, parses into both constraints in order. -/
theorem spec_C10 :
    parse_constraint_list "a = &b c = a" =
      some [⟨"a", "b", ConstraintKind.Addr⟩, ⟨"c", "a", ConstraintKind.Equal⟩] := by
  decide
